import Mathlib

/-!
# Verification of the gray-image-encryption pipeline

A shallow embedding of the repository (`utils.py`, `encrypt.py`,
`decrypt.py`) and proofs about its claims.

Modelling conventions:
* a numpy 2-D array is a `Grid`: a height, a width and a total indexing
  function (entries outside the declared dimensions are irrelevant and
  compared only through `Grid.Eqv`);
* a 1-D numpy array is a `List Nat`;
* machine integers are `Nat`/`Int` (the pixel transforms only subtract
  smaller from larger values, so no wraparound arises);
* fallible Python code (KeyError on a non-hex digit or a missing zig-zag
  dict entry, IndexError on a short key, ZeroDivisionError on a zero
  block size) is modelled with `Option`.
-/

/-- A 2-D grid of pixel intensities (model of a numpy 2-D array):
dimensions plus a total indexing function. -/
structure Grid where
  height : Nat
  width : Nat
  data : Nat → Nat → Nat

/-- Extensional equality of grids on their declared dimensions. -/
def Grid.Eqv (a b : Grid) : Prop :=
  a.height = b.height ∧ a.width = b.width ∧
    ∀ i, i < a.height → ∀ j, j < a.width → a.data i j = b.data i j

instance (a b : Grid) : Decidable (a.Eqv b) := by
  unfold Grid.Eqv; infer_instance

/-- The empty grid (used as the base of hstack/vstack folds). -/
def emptyGrid : Grid := ⟨0, 0, fun _ _ => 0⟩

/-- Python `range(0, stop, step)` for a positive step (list of visited
indices). -/
def pyRange (stop : Int) (step : Nat) : List Nat :=
  if 0 < stop ∧ 0 < step then
    (List.range (((stop - 1) / step).toNat + 1)).map (fun i => i * step)
  else []

/-- Python `range(start, stop)` with the default step 1. -/
def pyRangeAsc (start stop : Int) : List Int :=
  (List.range (stop - start).toNat).map (fun i => start + i)

/-- `np.roll` of a 1-D array by a (possibly negative) shift: a right
rotation by `s`, i.e. a left rotation by `(-s) mod length`. -/
def npRoll (l : List Nat) (s : Int) : List Nat :=
  l.rotate (((-s) % (l.length : Int)).toNat)

/-- Reverse a list when the Python slice step is `-1` (`[::-1]`). -/
def revIf (b : Bool) (l : List Nat) : List Nat := if b then l.reverse else l

/-- A Python loop that appends `f a` for each `a`, failing if any
iteration fails. -/
def mapO {α β : Type} (f : α → Option β) : List α → Option (List β)
  | [] => some []
  | a :: t => (f a).bind (fun b => (mapO f t).map (fun r => b :: r))

/-- A Python loop that re-assigns a grid every iteration, failing if any
iteration fails. -/
def foldO {ι : Type} (f : Grid → ι → Option Grid) : Grid → List ι → Option Grid
  | g, [] => some g
  | g, r :: t => (f g r).bind (fun g2 => foldO f g2 t)

/-! ## utils.py: key schedule -/

/-- `utils.hex2dec` / `HEX_DIGIT_MAP`: value of a lowercase hexadecimal
digit; any other character is a Python KeyError, modelled as `none`. -/
def hex2dec (c : Char) : Option Nat :=
  if ('0' ≤ c ∧ c ≤ '9') then some (c.toNat - Char.toNat '0')
  else if ('a' ≤ c ∧ c ≤ 'f') then some (c.toNat - Char.toNat 'a' + 10)
  else none

/-- `key[i]` followed by `hex2dec`: Python string indexing (IndexError
for `i ≥ len(key)`) then digit lookup. -/
def nib (key : List Char) (i : Nat) : Option Nat := (key.get? i).bind hex2dec

/-- Sum of the nibble values at the given key positions (a Python
accumulation loop over `hex2dec(key[index])`). -/
def sumNibs (key : List Char) (idxs : List Nat) : Option Nat :=
  (mapO (nib key) idxs).map (fun l => l.sum)

/-- One round of `utils.diffusion_characteristics` (`rnd0 = rnd - 1`):
`b` sums the nibbles at offsets 0..3 of the round's slice, `x` those at
offsets 0..2, `y` those at offsets 1..3. -/
def diffusionRound (key : List Char) (rnd0 : Nat) : Option (Nat × Nat × Nat) :=
  (sumNibs key [4*rnd0, 4*rnd0+1, 4*rnd0+2, 4*rnd0+3]).bind (fun b =>
    (sumNibs key [4*rnd0, 4*rnd0+1, 4*rnd0+2]).bind (fun x =>
      (sumNibs key [4*rnd0+1, 4*rnd0+2, 4*rnd0+3]).map (fun y => (b, x, y))))

/-- `utils.diffusion_characteristics`: the three per-round lists
`(bss, xrs, yrs)` for rounds 1..8. -/
def diffusion_characteristics (key : List Char) :
    Option (List Nat × List Nat × List Nat) :=
  (mapO (diffusionRound key) (List.range 8)).map
    (fun l => (l.map (fun t => t.1), l.map (fun t => t.2.1),
               l.map (fun t => t.2.2)))

/-- `utils.substitution_characteristics`: for round `rnd = rnd0 + 1` the
block size sums the nibbles at positions `4*(8 - rnd) + p - 1` for
`p = 1, 2, 3`, i.e. offsets 0..2 of the slice starting at `4*(7 - rnd0)`. -/
def substitution_characteristics (key : List Char) : Option (List Nat) :=
  mapO (fun rnd0 =>
      sumNibs key [4*(7-rnd0), 4*(7-rnd0)+1, 4*(7-rnd0)+2])
    (List.range 8)

/-! ## utils.py: zig-zag order (`shift`) and diagonal bookkeeping -/

/-- The sort key of `utils.shift`'s comparator:
`(x + y, -y if (x + y) % 2 else y)`. -/
def shiftKey (p : Nat × Nat) : Nat × Int :=
  (p.1 + p.2, if (p.1 + p.2) % 2 = 1 then -(p.2 : Int) else (p.2 : Int))

/-- Lexicographic comparison of `shiftKey`s (Python tuple ordering). -/
def shiftRel (p q : Nat × Nat) : Prop :=
  (shiftKey p).1 < (shiftKey q).1 ∨
    ((shiftKey p).1 = (shiftKey q).1 ∧ (shiftKey p).2 ≤ (shiftKey q).2)

instance : DecidableRel shiftRel := fun p q => by
  unfold shiftRel; infer_instance

/-- The `(x, y)` pairs `x in range(width)`, `y in range(height)` sorted by
`shiftKey` — the enumeration order of the zig-zag dict in `utils.shift`. -/
def shiftList (height width : Nat) : List (Nat × Nat) :=
  List.insertionSort shiftRel
    (((List.range width).map
      (fun x => (List.range height).map (fun y => (x, y)))).flatten)

/-- `utils.shift(height, width)[(x, y)]`: the zig-zag rank of `(x, y)`;
`none` models the KeyError when `(x, y)` is not a dict key. -/
def shift (height width : Nat) (x y : Nat) : Option Nat :=
  (shiftList height width).findIdx? (fun p => p = (x, y))

/-- `np.diagonal(A, k)` of an `h × w` array given as a function, with the
offset written as `k = d + 1 - h` for the 0-based anti-diagonal index `d`
used by the encryption loops (`k in range(1 - h, w)`). -/
def diagList (f : Nat → Nat → Nat) (h w : Nat) (d : Nat) : List Nat :=
  if d + 1 ≤ h then
    (List.range (min (d + 1) w)).map (fun t => f (t + (h - 1 - d)) t)
  else
    (List.range (min h (h + w - 1 - d))).map (fun t => f t (t + (d + 1 - h)))

/-- Python `k % 2 == 0` for the diagonal offset `k = d + 1 - h`. -/
def kEven (h : Nat) (d : Nat) : Bool := ((d : Int) + 1 - h) % 2 == 0

/-- The flat zig-zag sequence built by `encrypt.diffuse`: all diagonals of
the (already vertically flipped) array, alternate diagonals reversed,
concatenated. -/
def zigzagSeq (f : Nat → Nat → Nat) (h w : Nat) : List Nat :=
  ((List.range (h + w - 1)).map
    (fun d => revIf (kEven h d) (diagList f h w d))).flatten

/-- `block[::-1, :]`: vertical flip of a grid's data. -/
def flipData (g : Grid) : Nat → Nat → Nat :=
  fun i j => g.data (g.height - 1 - i) j

/-- Sizes of `utils.matrix_diagonals` of a `size × size` array (the
diagonal contents are irrelevant to `utils.indices`). -/
def diagSizes (size : Nat) : List Nat :=
  (List.range (2 * size - 1)).map
    (fun d => (diagList (fun _ _ => 0) size size d).length)

/-- `utils.indices(size)`: `np.insert(np.cumsum(sizes), 0, 0)` — the
running sums of the diagonal sizes, with a leading 0. -/
def indices (size : Nat) : List Nat :=
  List.scanl (fun a b => a + b) 0 (diagSizes size)

/-! ## encrypt.py / decrypt.py: diffusion -/

/-- `encrypt.diffuse`: concatenate the zig-zag diagonals of the flipped
block, roll by `-(rank(x, y) - 1)`, split into `width` rows and
transpose. `none` models the KeyError when `(x, y)` has no zig-zag rank. -/
def diffuse (block : Grid) (xr yr : Nat) : Option Grid :=
  match shift block.height block.width xr yr with
  | none => none
  | some rank =>
    let z := zigzagSeq (flipData block) block.height block.width
    let rolled := npRoll z (-((rank : Int) - 1))
    some ⟨rolled.length / block.width, block.width,
          fun i j => rolled.getD (j * (rolled.length / block.width) + i) 0⟩

/-- `transpose(g).ravel()`: read a grid column by column into a flat
list. -/
def colRavel (g : Grid) : List Nat :=
  (List.range (g.width * g.height)).map
    (fun p => g.data (p % g.height) (p / g.height))

/-- `decrypt.undiffuse`: unravel the transposed block, roll back by
`rank(x, y) - 1`, cut the flat sequence at `utils.indices` boundaries,
re-reverse alternate diagonals, reassemble them with `sparse.diags`
(diagonal `k = d + 1 - h` holds entry `v[min r c]` at position `(r, c)`
with `c - r = k`), then flip vertically and transpose. -/
def undiffuse (diffused : Grid) (xr yr : Nat) : Option Grid :=
  match shift diffused.height diffused.height xr yr with
  | none => none
  | some rank =>
    let h := diffused.height
    let idxs := indices h
    let raveled := npRoll (colRavel diffused) ((rank : Int) - 1)
    let diags := (List.range (idxs.length - 1)).map
      (fun i => (raveled.drop (idxs.getD i 0)).take
                  (idxs.getD (i+1) 0 - idxs.getD i 0))
    let diags2 := (List.range diags.length).map
      (fun i => revIf (i % 2 == 0) (diags.getD i []))
    some ⟨h, h, fun i j =>
      (diags2.getD (i + h - 1 - (h - 1 - j)) []).getD (min (h - 1 - j) i) 0⟩

/-- The list `diags` built inside `decrypt.undiffuse` for a block `B`
whose zig-zag rank of the starting pair is `r`: the rolled-back flat
sequence cut at the `utils.indices` boundaries. -/
def undiffuseDiags (B : Grid) (r : Nat) : List (List Nat) :=
  (List.range ((indices B.height).length - 1)).map
    (fun i => ((npRoll (colRavel B) ((r : Int) - 1)).drop
                  ((indices B.height).getD i 0)).take
                ((indices B.height).getD (i+1) 0 -
                  (indices B.height).getD i 0))

/-- The in-place update loop of `decrypt.undiffuse`: every even-indexed
diagonal is reversed. -/
def undiffuseDiags2 (B : Grid) (r : Nat) : List (List Nat) :=
  (List.range (undiffuseDiags B r).length).map
    (fun i => revIf (i % 2 == 0) ((undiffuseDiags B r).getD i []))

/-! ## utils.py: partition, merge, substitution transforms -/

/-- The zero-padded matrix built by `utils.blocks`: pad on the bottom and
the right to the next multiple of `block_size`. -/
def padGrid (g : Grid) (block_size : Nat) : Grid :=
  ⟨g.height + (if g.height % block_size = 0 then 0
               else block_size - g.height % block_size),
   g.width + (if g.width % block_size = 0 then 0
              else block_size - g.width % block_size),
   fun i j => if i < g.height ∧ j < g.width then g.data i j else 0⟩

/-- `out[i : i + bs, j : j + bs]`: a square sub-block of a grid. -/
def subBlock (out : Grid) (i j bs : Nat) : Grid :=
  ⟨bs, bs, fun a c => out.data (i + a) (j + c)⟩

/-- `utils.blocks`: zero-pad, then slice into `block_size × block_size`
blocks in row-major order; also return the padded size in blocks.
`none` models the ZeroDivisionError for `block_size = 0`. -/
def blocks (matrix : Grid) (block_size : Nat) :
    Option (List Grid × Nat × Nat) :=
  if block_size = 0 then none
  else
    some ((((pyRange (((padGrid matrix block_size).height : Int)
          - block_size + 1) block_size).map
        (fun i => (pyRange (((padGrid matrix block_size).width : Int)
            - block_size + 1) block_size).map
          (fun j => subBlock (padGrid matrix block_size) i j block_size))).flatten,
      (padGrid matrix block_size).height / block_size,
      (padGrid matrix block_size).width / block_size))

/-- `np.hstack` of two grids (widths add; numpy requires equal heights,
which all call sites satisfy). -/
def hstack2 (a b : Grid) : Grid :=
  ⟨a.height, a.width + b.width,
   fun i j => if j < a.width then a.data i j else b.data i (j - a.width)⟩

/-- `np.vstack` of two grids (heights add). -/
def vstack2 (a b : Grid) : Grid :=
  ⟨a.height + b.height, a.width,
   fun i j => if i < a.height then a.data i j else b.data (i - a.height) j⟩

/-- `np.hstack` over a sequence of grids. -/
def hstackL : List Grid → Grid
  | [] => emptyGrid
  | g :: t => hstack2 g (hstackL t)

/-- `np.vstack` over a sequence of grids. -/
def vstackL : List Grid → Grid
  | [] => emptyGrid
  | g :: t => vstack2 g (vstackL t)

/-- `utils.merge`: group the block list into chunks of `shape[0]`
(`range(0, len(blks), shape[0])`), hstack each chunk, vstack the rows.
Note the source uses `shape[0]` (the count of block **rows**) as the
chunk length. -/
def merge (blks : List Grid) (shape : Nat × Nat) : Grid :=
  vstackL ((pyRange (blks.length : Int) shape.1).map
    (fun i => hstackL ((blks.drop i).take shape.1)))

/-- `np.amax` of row `i` (rows are nonempty at every call site; an empty
row yields 0). -/
def rowMax (g : Grid) (i : Nat) : Nat :=
  ((List.range g.width).map (fun j => g.data i j)).foldr max 0

/-- `utils.row_transform`: in each row, entries strictly below the row
maximum `M` become `M - value`; entries equal to `M` stay. -/
def row_transform (block : Grid) : Grid :=
  ⟨block.height, block.width, fun i j =>
    if block.data i j < rowMax block i then rowMax block i - block.data i j
    else block.data i j⟩

/-- `np.amax` of column `j`. -/
def colMax (g : Grid) (j : Nat) : Nat :=
  ((List.range g.height).map (fun i => g.data i j)).foldr max 0

/-- `utils.column_transform`: the reflection of `row_transform` applied
per column; the source iterates `i in range(block.shape[0])`, so only
columns of index `< height` are transformed (all call sites pass square
blocks). -/
def column_transform (block : Grid) : Grid :=
  ⟨block.height, block.width, fun i j =>
    if j < block.height ∧ block.data i j < colMax block j
    then colMax block j - block.data i j
    else block.data i j⟩

/-- numpy slice `g[:h, :w]` (clamping, as numpy slices do). -/
def crop (g : Grid) (h w : Nat) : Grid :=
  ⟨min g.height h, min g.width w, g.data⟩

/-! ## encrypt.py / decrypt.py: pipelines -/

/-- One diffusion round of `encrypt.encrypt` (body of the first loop). -/
def encRound (bss xrs yrs : List Nat) (height width : Nat)
    (g : Grid) (rnd : Nat) : Option Grid :=
  (bss.get? rnd).bind (fun bs =>
    (blocks g bs).bind (fun pr =>
      (mapO (fun blk =>
          (xrs.get? rnd).bind (fun xr =>
            (yrs.get? rnd).bind (fun yr => diffuse blk xr yr))) pr.1).bind
        (fun diffused => some (crop (merge diffused pr.2) height width))))

/-- One substitution round of `encrypt.encrypt` (body of the second
loop): `column_transform(row_transform(blk))` on every block. -/
def subRoundE (sss : List Nat) (height width : Nat)
    (g : Grid) (rnd : Nat) : Option Grid :=
  (sss.get? rnd).bind (fun bs =>
    (blocks g bs).bind (fun pr =>
      some (crop (merge (pr.1.map (fun blk => column_transform (row_transform blk)))
        pr.2) height width)))

/-- `encrypt.encrypt`: diffusion rounds `0..rounds-1`, then (when
`permute`) substitution rounds `0..rounds-1`. -/
def encrypt (img : Grid) (key : List Char) (permute : Bool) (rounds : Nat) :
    Option Grid :=
  (diffusion_characteristics key).bind (fun dc =>
    (foldO (encRound dc.1 dc.2.1 dc.2.2 img.height img.width) img
        (List.range rounds)).bind (fun afterDiffusion =>
      if permute then
        (substitution_characteristics key).bind (fun sss =>
          foldO (subRoundE sss img.height img.width) afterDiffusion
            (List.range rounds))
      else some afterDiffusion))

/-- One substitution round of `decrypt.decrypt`:
`row_transform(column_transform(blk))` on every block (the dead loop's
body; its Python index is an `Int`). -/
def subRoundD (sss : List Nat) (height width : Nat)
    (g : Grid) (rnd : Int) : Option Grid :=
  (sss.get? rnd.toNat).bind (fun bs =>
    (blocks g bs).bind (fun pr =>
      some (crop (merge (pr.1.map (fun blk => row_transform (column_transform blk)))
        pr.2) height width)))

/-- One diffusion-undo round of `decrypt.decrypt`. -/
def decRound (bss xrs yrs : List Nat) (height width : Nat)
    (g : Grid) (rnd : Nat) : Option Grid :=
  (bss.get? rnd).bind (fun bs =>
    (blocks g bs).bind (fun pr =>
      (mapO (fun blk =>
          (xrs.get? rnd).bind (fun xr =>
            (yrs.get? rnd).bind (fun yr => undiffuse blk xr yr))) pr.1).bind
        (fun undiffused => some (crop (merge undiffused pr.2) height width))))

/-- `decrypt.decrypt`. When `permute`, the substitution loop iterates over
`range(rounds - 1, -1 -1)` — Python `range(rounds - 1, -2)` with the
default step `1`, which is empty; the diffusion-undo loop iterates over
`range(rounds - 1, -1, -1)`, i.e. rounds `rounds-1` down to `0`. -/
def decrypt (img : Grid) (key : List Char) (permute : Bool) (rounds : Nat) :
    Option Grid :=
  (if permute then
      (substitution_characteristics key).bind (fun sss =>
        foldO (subRoundD sss img.height img.width) img
          (pyRangeAsc ((rounds : Int) - 1) (-1 - 1)))
    else some img).bind (fun afterSubstitution =>
    (diffusion_characteristics key).bind (fun dc =>
      foldO (decRound dc.1 dc.2.1 dc.2.2 img.height img.width)
        afterSubstitution ((List.range rounds).reverse)))

/-! ## Concrete inputs used by counterexamples and witnesses -/

/-- A 32-hex-digit key whose round-1 slice is `1001`:
`b_1 = 2`, `x_1 = 1`, `y_1 = 1`. -/
def key1001 : List Char := "10010000000000000000000000000000".toList

/-- A 32-hex-digit key whose round-1 slice is `1101`:
`b_1 = 3`, `x_1 = 2`, `y_1 = 2`. -/
def key1101 : List Char := "11010000000000000000000000000000".toList

/-- A 32-hex-digit key whose round-1 slice is `1110`:
`b_1 = 3`, `x_1 = 3`, `y_1 = 2` (the offset `x_1` equals the block size). -/
def keyC9 : List Char := "11100000000000000000000000000000".toList

/-- A 32-hex-digit key whose last slice (positions 28–31) is `1110` and
whose other positions are `0`. -/
def keyC6 : List Char := "00000000000000000000000000001110".toList

/-- A 4-character all-hex key (long enough for one round at 4 digits per
round, but shorter than the 32 digits the schedule derivation reads). -/
def keyShort : List Char := "abcd".toList

/-- A 2×2 grid with entries 0..3, row-major. -/
def gridA : Grid := ⟨2, 2, fun i j => 2 * i + j⟩

/-- A 3×3 grid with entries 0..8, row-major. -/
def gridB : Grid := ⟨3, 3, fun i j => 3 * i + j⟩

/-- A non-square 2×4 grid with entries 0..7, row-major. -/
def gridC : Grid := ⟨2, 4, fun i j => 4 * i + j⟩

/-- A 1×1 grid. -/
def gridOne : Grid := ⟨1, 1, fun _ _ => 5⟩

/-- The 1×2 block `[[0, 2]]`: contains a 0 and a unique row maximum. -/
def gridRow : Grid := ⟨1, 2, fun _ j => 2 * j⟩


/-! ## Basic Option / list helper lemmas -/

theorem map_isSome {α β : Type} (o : Option α) (f : α → β) :
    (o.map f).isSome = o.isSome := by
  cases o <;> rfl

theorem bind_isSome_iff {α β : Type} (o : Option α) (f : α → Option β) :
    (o.bind f).isSome = true ↔ ∃ a, o = some a ∧ (f a).isSome = true := by
  cases o <;> simp

theorem mapO_isSome {α β : Type} (f : α → Option β) (l : List α) :
    (mapO f l).isSome = true ↔ ∀ a ∈ l, (f a).isSome = true := by
  induction l with
  | nil => simp [mapO]
  | cons a t ih =>
    cases hfa : f a with
    | none => simp [mapO, hfa]
    | some b =>
      simp only [mapO, hfa, Option.some_bind, map_isSome, ih, List.mem_cons]
      constructor
      · intro h c hc
        rcases hc with hc | hc
        · subst hc; simp [hfa]
        · exact h c hc
      · intro h c hc
        exact h c (Or.inr hc)

theorem mapO_length {α β : Type} (f : α → Option β) (l : List α)
    (l2 : List β) (h : mapO f l = some l2) : l2.length = l.length := by
  induction l generalizing l2 with
  | nil => simp [mapO] at h; simp [← h]
  | cons a t ih =>
    simp only [mapO, Option.bind_eq_some, Option.map_eq_some'] at h
    obtain ⟨b, _, r, hr, rfl⟩ := h
    simp [ih r hr]

theorem mapO_some_getD {α β : Type} (f : α → Option β) (l : List α)
    (l2 : List β) (h : mapO f l = some l2) (i : Nat) (hi : i < l.length)
    (da : α) (db : β) : f (l.getD i da) = some (l2.getD i db) := by
  induction l generalizing l2 i with
  | nil => simp at hi
  | cons a t ih =>
    simp only [mapO, Option.bind_eq_some, Option.map_eq_some'] at h
    obtain ⟨b, hb, r, hr, rfl⟩ := h
    cases i with
    | zero => simpa using hb
    | succ i =>
      simp only [List.getD_cons_succ]
      exact ih r hr i (by simpa using hi)

theorem getD_map_of_default {α β : Type} (f : α → β) (l : List α)
    (i : Nat) (d0 : α) (d : β) (hd : f d0 = d) :
    (l.map f).getD i d = f (l.getD i d0) := by
  subst hd
  induction l generalizing i with
  | nil => simp
  | cons a t ih =>
    cases i with
    | zero => simp
    | succ i => simp [ih i]

theorem getD_range (n i : Nat) (hi : i < n) (d : Nat) :
    (List.range n).getD i d = i := by
  rw [List.getD_eq_getElem _ _ (by simpa using hi), List.getElem_range]

/-! ## Key-schedule lemmas -/

theorem sumNibs_isSome (key : List Char) (idxs : List Nat) :
    (sumNibs key idxs).isSome = true ↔
      ∀ i ∈ idxs, (nib key i).isSome = true := by
  unfold sumNibs
  rw [map_isSome, mapO_isSome]

theorem diffusionRound_isSome (key : List Char) (r : Nat) :
    (diffusionRound key r).isSome = true ↔
      ∀ p, p < 4 → (nib key (4*r+p)).isSome = true := by
  unfold diffusionRound
  rw [bind_isSome_iff]
  constructor
  · rintro ⟨b, hb, -⟩ p hp
    have hs : (sumNibs key [4*r, 4*r+1, 4*r+2, 4*r+3]).isSome = true := by
      simp [hb]
    rw [sumNibs_isSome] at hs
    interval_cases p
    · exact hs _ (by simp)
    · exact hs _ (by simp)
    · exact hs _ (by simp)
    · exact hs _ (by simp)
  · intro h
    have hb : (sumNibs key [4*r, 4*r+1, 4*r+2, 4*r+3]).isSome = true := by
      rw [sumNibs_isSome]
      intro i hi
      simp only [List.mem_cons, List.not_mem_nil, or_false] at hi
      rcases hi with rfl | rfl | rfl | rfl
      · exact h 0 (by omega)
      · exact h 1 (by omega)
      · exact h 2 (by omega)
      · exact h 3 (by omega)
    have hx : (sumNibs key [4*r, 4*r+1, 4*r+2]).isSome = true := by
      rw [sumNibs_isSome]
      intro i hi
      simp only [List.mem_cons, List.not_mem_nil, or_false] at hi
      rcases hi with rfl | rfl | rfl
      · exact h 0 (by omega)
      · exact h 1 (by omega)
      · exact h 2 (by omega)
    have hy : (sumNibs key [4*r+1, 4*r+2, 4*r+3]).isSome = true := by
      rw [sumNibs_isSome]
      intro i hi
      simp only [List.mem_cons, List.not_mem_nil, or_false] at hi
      rcases hi with rfl | rfl | rfl
      · exact h 1 (by omega)
      · exact h 2 (by omega)
      · exact h 3 (by omega)
    rw [Option.isSome_iff_exists] at hb hx hy
    obtain ⟨b, hb⟩ := hb
    obtain ⟨x, hx⟩ := hx
    obtain ⟨y, hy⟩ := hy
    exact ⟨b, hb, by simp [hx, hy]⟩

theorem diffusion_isSome_iff (key : List Char) :
    (diffusion_characteristics key).isSome = true ↔
      ∀ i, i < 32 → (nib key i).isSome = true := by
  unfold diffusion_characteristics
  rw [map_isSome, mapO_isSome]
  constructor
  · intro h i hi
    have hr : i / 4 ∈ List.range 8 := by
      rw [List.mem_range]; omega
    have := (diffusionRound_isSome key (i / 4)).mp (h _ hr) (i % 4) (by omega)
    have hi4 : 4 * (i / 4) + i % 4 = i := by omega
    rwa [hi4] at this
  · intro h r hr
    rw [List.mem_range] at hr
    rw [diffusionRound_isSome]
    intro p hp
    exact h _ (by omega)

theorem substitution_isSome_of (key : List Char)
    (h : ∀ i, i < 32 → (nib key i).isSome = true) :
    (substitution_characteristics key).isSome = true := by
  unfold substitution_characteristics
  rw [mapO_isSome]
  intro r hr
  rw [List.mem_range] at hr
  rw [sumNibs_isSome]
  intro i hi
  simp only [List.mem_cons, List.not_mem_nil, or_false] at hi
  rcases hi with rfl | rfl | rfl <;> exact h _ (by omega)

theorem diffusion_none_of_substitution_none (key : List Char)
    (h : substitution_characteristics key = none) :
    diffusion_characteristics key = none := by
  by_contra hd
  rw [← Option.not_isSome_iff_eq_none, not_not] at hd
  have := substitution_isSome_of key ((diffusion_isSome_iff key).mp hd)
  rw [h] at this
  simp at this

theorem pyRangeAsc_dead (rounds : Nat) :
    pyRangeAsc ((rounds : Int) - 1) (-1 - 1) = [] := by
  unfold pyRangeAsc
  have : ((-1 - 1 : Int) - ((rounds : Int) - 1)).toNat = 0 :=
    Int.toNat_of_nonpos (by omega)
  rw [this]
  rfl

theorem sumNibs4 (key : List Char) (a b c d s : Nat)
    (h : sumNibs key [a, b, c, d] = some s) :
    ∃ na nb nc nd, nib key a = some na ∧ nib key b = some nb ∧
      nib key c = some nc ∧ nib key d = some nd ∧ s = na + nb + nc + nd := by
  simp only [sumNibs, mapO, Option.bind_eq_some, Option.map_eq_some'] at h
  obtain ⟨l, ⟨na, hna, l1, ⟨nb, hnb, l2, ⟨nc, hnc, l3, ⟨nd, hnd, l4, h4, hl3⟩,
    hl2⟩, hl1⟩, hl⟩, hs⟩ := h
  subst hl hl1 hl2 hl3
  refine ⟨na, nb, nc, nd, hna, hnb, hnc, hnd, ?_⟩
  simp [mapO] at h4
  subst h4
  simp at hs
  omega

theorem sumNibs3 (key : List Char) (a b c s : Nat)
    (h : sumNibs key [a, b, c] = some s) :
    ∃ na nb nc, nib key a = some na ∧ nib key b = some nb ∧
      nib key c = some nc ∧ s = na + nb + nc := by
  simp only [sumNibs, mapO, Option.bind_eq_some, Option.map_eq_some'] at h
  obtain ⟨l, ⟨na, hna, l1, ⟨nb, hnb, l2, ⟨nc, hnc, l3, h3, hl2⟩, hl1⟩, hl⟩,
    hs⟩ := h
  subst hl hl1 hl2
  refine ⟨na, nb, nc, hna, hnb, hnc, ?_⟩
  simp [mapO] at h3
  subst h3
  simp at hs
  omega

/-! ## Claim C5 (code bug): the substitution-undo stage of decrypt -/

/-- Claim C5: with `permute = true`, `decrypt` is supposed to undo the
substitution stage for each round `rounds..1` before undoing diffusion.
In the source the loop header is `range(rounds - 1, -1 -1)` — i.e.
`range(rounds - 1, -2)` with the default step `1`, which is empty — so
the substitution-undo stage never executes: decryption with
`permute = true` behaves exactly like decryption with `permute = false`
(when the substitution schedule itself fails, both fail). -/
theorem C5_substitution_stage_skipped (img : Grid) (key : List Char)
    (rounds : Nat) :
    decrypt img key true rounds = decrypt img key false rounds := by
  unfold decrypt
  rw [pyRangeAsc_dead]
  cases hs : substitution_characteristics key with
  | none =>
    have hd := diffusion_none_of_substitution_none key hs
    simp [hd]
  | some s => simp [foldO]

/-! ## Claim C6 (corrected): the substitution schedule's slice -/

/-- Claim C6, counterexample: for the key `"0…01110"` (positions 28–31
are `1110`), the code's `s_1` sums positions 28–30 and equals 3, while
the claim's formula — offsets 0..2 of the slice of round `8 − 1 = 7`,
which starts at position `4·(7−1) = 24` — gives 0. -/
theorem C6_counterexample :
    (substitution_characteristics keyC6).map (fun l => l.getD 0 0) = some 3 ∧
    sumNibs keyC6 [24, 25, 26] = some 0 := by decide

/-- Claim C6, amended: for round `r` (1-indexed) the substitution block
size `s_r` sums the nibbles at offsets 0..2 of the slice starting at key
position `4·(8−r)` — the slice of round `9−r`, not of round `8−r`.
Equivalently, in 0-indexed form, `s[r] = x[7−r]`: the substitution size
of round `r+1` equals the diffusion x-offset of round `8−r`. -/
theorem C6_substitution_schedule_amended :
    ∀ key bss xrs yrs subs,
      diffusion_characteristics key = some (bss, xrs, yrs) →
      substitution_characteristics key = some subs →
      ∀ r, r < 8 → subs.getD r 0 = xrs.getD (7 - r) 0 := by
  intro key bss xrs yrs subs hd hs r hr
  unfold substitution_characteristics at hs
  have h1 := mapO_some_getD _ _ _ hs r (by simp [hr]) 0 0
  rw [getD_range 8 r hr] at h1
  unfold diffusion_characteristics at hd
  rw [Option.map_eq_some'] at hd
  obtain ⟨l, hl, heq⟩ := hd
  have hlen : l.length = 8 := by simpa using mapO_length _ _ _ hl
  have h2 := mapO_some_getD _ _ _ hl (7 - r)
    (by simp only [List.length_range]; omega) 0 (0, 0, 0)
  rw [getD_range 8 (7 - r) (by omega)] at h2
  unfold diffusionRound at h2
  rw [Option.bind_eq_some] at h2
  obtain ⟨b, hb, h2⟩ := h2
  rw [Option.bind_eq_some] at h2
  obtain ⟨x, hx, h2⟩ := h2
  rw [Option.map_eq_some'] at h2
  obtain ⟨y, hy, htrip⟩ := h2
  have hx2 : l.map (fun t => t.2.1) = xrs := by
    have h23 := congrArg Prod.snd heq
    exact congrArg Prod.fst h23
  have hxrs : xrs.getD (7 - r) 0 = x := by
    rw [← hx2, getD_map_of_default (fun t => t.2.1) l (7 - r) (0, 0, 0) 0 rfl,
      ← htrip]
  rw [hxrs]
  exact Option.some.inj (h1.symm.trans hx)

/-- Witness for `C6_substitution_schedule_amended` at the key
`"0…01110"` and round index 0. -/
theorem C6_substitution_schedule_amended_witness :
    ([3, 0, 0, 0, 0, 0, 0, 0] : List Nat).getD 0 0 =
      ([0, 0, 0, 0, 0, 0, 0, 3] : List Nat).getD (7 - 0) 0 :=
  C6_substitution_schedule_amended keyC6
    [0, 0, 0, 0, 0, 0, 0, 3] [0, 0, 0, 0, 0, 0, 0, 3]
    [0, 0, 0, 0, 0, 0, 0, 2] [3, 0, 0, 0, 0, 0, 0, 0]
    (by decide) (by decide) 0 (by decide)

/-! ## Claim C7 (corrected): key validity -/

/-- Claim C7, counterexample: `"abcd"` is a 4-character all-hex key —
long enough for one round at 4 digits per round, so by the claim the
schedule derivation for `rounds = 1` should accept it — but the
derivation always reads all 32 positions and fails, and `encrypt` with
`rounds = 1` fails with it as well. -/
theorem C7_counterexample :
    keyShort.length = 4 ∧
    (keyShort.all (fun c => (hex2dec c).isSome)) = true ∧
    diffusion_characteristics keyShort = none ∧
    (encrypt gridOne keyShort false 1).isNone = true := by decide

/-- Claim C7, amended: the key-schedule derivation succeeds exactly when
the first 32 key characters exist and are lowercase hex digits — the
requested round count is irrelevant, because the derivation always
derives all 8 rounds (4 × 8 = 32 digits). -/
theorem C7_key_validity_amended (key : List Char) :
    (diffusion_characteristics key).isSome = true ↔
      (32 ≤ key.length ∧
        ∀ i, i < 32 → ∃ c, key.get? i = some c ∧ (hex2dec c).isSome = true) := by
  rw [diffusion_isSome_iff]
  constructor
  · intro h
    constructor
    · by_contra hlen
      push_neg at hlen
      have h31 := h 31 (by omega)
      unfold nib at h31
      rw [List.get?_eq_none.mpr (by omega)] at h31
      simp at h31
    · intro i hi
      have := h i hi
      unfold nib at this
      rw [bind_isSome_iff] at this
      exact this
  · rintro ⟨hlen, h⟩ i hi
    obtain ⟨c, hc, hcs⟩ := h i hi
    unfold nib
    rw [hc]
    simpa using hcs

/-! ## Claim C8 (confirmed): row_transform is not an involution -/

/-- Claim C8: there is a block containing the value 0 — the 1×2 block
`[[0, 2]]` — on which applying `row_transform` twice does not reproduce
the original block: `[[0, 2]] ↦ [[2, 2]] ↦ [[2, 2]]`. -/
theorem C8_row_transform_not_involution :
    gridRow.data 0 0 = 0 ∧
    ¬ (row_transform (row_transform gridRow)).Eqv gridRow := by decide

/-! ## Claim C9 (confirmed): key-derived offsets can reach the block size -/

/-- Claim C9: for every accepted key and round `r`, the diffusion offsets
satisfy `x_r ≤ b_r` and `y_r ≤ b_r` (they sum three of the four nibbles
whose sum is `b_r`); `x_r = b_r` exactly when the slice's nibble at
offset 3 is 0 and `y_r = b_r` exactly when the nibble at offset 0 is 0.
Equality is reachable: with the valid 32-digit key `"11100…0"` (so
`x_1 = b_1 = 3`), the starting coordinate lies outside the block and
encryption of a non-empty grid fails before producing output. -/
theorem C9_offsets_reach_block_size :
    (∀ key bss xrs yrs,
      diffusion_characteristics key = some (bss, xrs, yrs) →
      ∀ r, r < 8 →
        xrs.getD r 0 ≤ bss.getD r 0 ∧ yrs.getD r 0 ≤ bss.getD r 0 ∧
        (nib key (4*r+3) = some 0 → xrs.getD r 0 = bss.getD r 0) ∧
        (nib key (4*r) = some 0 → yrs.getD r 0 = bss.getD r 0)) ∧
    (encrypt gridOne keyC9 false 1).isNone = true := by
  constructor
  · intro key bss xrs yrs hd r hr
    unfold diffusion_characteristics at hd
    rw [Option.map_eq_some'] at hd
    obtain ⟨l, hl, heq⟩ := hd
    have h2 := mapO_some_getD _ _ _ hl r (by simp [hr]) 0 (0, 0, 0)
    rw [getD_range 8 r hr] at h2
    unfold diffusionRound at h2
    rw [Option.bind_eq_some] at h2
    obtain ⟨b, hb, h2⟩ := h2
    rw [Option.bind_eq_some] at h2
    obtain ⟨x, hx, h2⟩ := h2
    rw [Option.map_eq_some'] at h2
    obtain ⟨y, hy, htrip⟩ := h2
    obtain ⟨n0, n1, n2, n3, hn0, hn1, hn2, hn3, hbv⟩ :=
      sumNibs4 _ _ _ _ _ _ hb
    obtain ⟨m0, m1, m2, hm0, hm1, hm2, hxv⟩ := sumNibs3 _ _ _ _ _ hx
    obtain ⟨k1, k2, k3, hk1, hk2, hk3, hyv⟩ := sumNibs3 _ _ _ _ _ hy
    have em0 : m0 = n0 := Option.some.inj (hm0.symm.trans hn0)
    have em1 : m1 = n1 := Option.some.inj (hm1.symm.trans hn1)
    have em2 : m2 = n2 := Option.some.inj (hm2.symm.trans hn2)
    have ek1 : k1 = n1 := Option.some.inj (hk1.symm.trans hn1)
    have ek2 : k2 = n2 := Option.some.inj (hk2.symm.trans hn2)
    have ek3 : k3 = n3 := Option.some.inj (hk3.symm.trans hn3)
    have hbss : bss.getD r 0 = b := by
      have h1 : l.map (fun t => t.1) = bss := congrArg Prod.fst heq
      rw [← h1, getD_map_of_default (fun t => t.1) l r (0, 0, 0) 0 rfl,
        ← htrip]
    have hxrs : xrs.getD r 0 = x := by
      have h1 : l.map (fun t => t.2.1) = xrs :=
        congrArg Prod.fst (congrArg Prod.snd heq)
      rw [← h1, getD_map_of_default (fun t => t.2.1) l r (0, 0, 0) 0 rfl,
        ← htrip]
    have hyrs : yrs.getD r 0 = y := by
      have h1 : l.map (fun t => t.2.2) = yrs :=
        congrArg Prod.snd (congrArg Prod.snd heq)
      rw [← h1, getD_map_of_default (fun t => t.2.2) l r (0, 0, 0) 0 rfl,
        ← htrip]
    refine ⟨by omega, by omega, ?_, ?_⟩
    · intro h3
      have : n3 = 0 := Option.some.inj (hn3.symm.trans h3)
      omega
    · intro h0
      have : n0 = 0 := Option.some.inj (hn0.symm.trans h0)
      omega
  · decide

/-- Witness for the universally quantified part of
`C9_offsets_reach_block_size`, at the key `"11100…0"` and round index 0. -/
theorem C9_offsets_witness :
    ([3, 0, 0, 0, 0, 0, 0, 0] : List Nat).getD 0 0 ≤
        ([3, 0, 0, 0, 0, 0, 0, 0] : List Nat).getD 0 0 ∧
      ([2, 0, 0, 0, 0, 0, 0, 0] : List Nat).getD 0 0 ≤
        ([3, 0, 0, 0, 0, 0, 0, 0] : List Nat).getD 0 0 ∧
      (nib keyC9 (4*0+3) = some 0 →
        ([3, 0, 0, 0, 0, 0, 0, 0] : List Nat).getD 0 0 =
          ([3, 0, 0, 0, 0, 0, 0, 0] : List Nat).getD 0 0) ∧
      (nib keyC9 (4*0) = some 0 →
        ([2, 0, 0, 0, 0, 0, 0, 0] : List Nat).getD 0 0 =
          ([3, 0, 0, 0, 0, 0, 0, 0] : List Nat).getD 0 0) :=
  C9_offsets_reach_block_size.1 keyC9
    [3, 0, 0, 0, 0, 0, 0, 0] [3, 0, 0, 0, 0, 0, 0, 0]
    [2, 0, 0, 0, 0, 0, 0, 0] (by decide) 0 (by decide)

/-! ## Counterexamples for claims C1–C4 -/

/-- Claim C2, counterexample: on the 3×3 block with entries 0..8 and
starting pair (0, 0), `undiffuse(diffuse(block, 0, 0), 0, 0)` is defined
but differs from the block (for odd block sizes the composite is the
transpose, because `undiffuse` re-reverses the diagonals of the wrong
parity and then transposes). -/
theorem C2_counterexample :
    ((diffuse gridB 0 0).bind (fun d => undiffuse d 0 0)).map
      (fun u => decide (u.Eqv gridB)) = some false := by decide

/-- Claim C1, counterexample: with the valid 32-digit key `"11010…0"`
(`b_1 = 3` divides the grid size, `x_1 = y_1 = 2 < 3`), one round and
`permute = false`, `decrypt(encrypt(grid))` completes but differs from
the 3×3 grid with entries 0..8: the odd block size makes each block come
back transposed. -/
theorem C1_counterexample :
    ((encrypt gridB key1101 false 1).bind
      (fun ge => decrypt ge key1101 false 1)).map
      (fun gd => decide (gd.Eqv gridB)) = some false := by decide

/-- Claim C3, counterexample: for the 2×4 grid with entries 0..7 and
block size 2 (which divides both dimensions exactly, so no padding),
`merge` reassembles the blocks using `shape[0]` (the block-row count, 1)
as the chunk length instead of the block-column count, producing a 4×2
grid instead of the original 2×4 grid. -/
theorem C3_counterexample :
    (2 : Nat) ∣ gridC.height ∧ (2 : Nat) ∣ gridC.width ∧
    (blocks gridC 2).map
      (fun pr => ((merge pr.1 pr.2).height, (merge pr.1 pr.2).width)) =
      some (4, 2) ∧
    (blocks gridC 2).map
      (fun pr => decide ((merge pr.1 pr.2).Eqv gridC)) = some false := by
  decide

/-- Claim C4, counterexample: encrypting the 2×4 grid with the valid key
`"10010…0"` (`b_1 = 2`) for one round completes, but the merge-and-crop
step turns the 2×4 working grid into a 2×2 grid, so the output dimensions
differ from the input dimensions. -/
theorem C4_counterexample :
    gridC.height = 2 ∧ gridC.width = 4 ∧
    (encrypt gridC key1001 false 1).map (fun g => (g.height, g.width)) =
      some (2, 2) := by decide

/-! ## List infrastructure for the diffusion proofs -/

theorem getD_range_map {α : Type} (f : Nat → α) (m i : Nat) (hi : i < m)
    (d : α) : ((List.range m).map f).getD i d = f i := by
  rw [List.getD_eq_getElem _ _ (by simp [hi])]
  simp

theorem list_eq_map_getD {α : Type} (l : List α) (d : α) :
    (List.range l.length).map (fun i => l.getD i d) = l := by
  apply List.ext_getElem (by simp)
  intro n h1 h2
  simp only [List.getElem_map, List.getElem_range]
  rw [List.getD_eq_getElem _ _ h2]

theorem revIf_length (b : Bool) (l : List Nat) :
    (revIf b l).length = l.length := by
  unfold revIf; split <;> simp

theorem diagList_length (f : Nat → Nat → Nat) (h w d : Nat) :
    (diagList f h w d).length =
      if d + 1 ≤ h then min (d + 1) w else min h (h + w - 1 - d) := by
  unfold diagList; split <;> simp

theorem emod_add_neg_emod (s L : Int) (hL : 0 < L) :
    s % L + (-s) % L = 0 ∨ s % L + (-s) % L = L := by
  have h1 : 0 ≤ s % L := Int.emod_nonneg s (by omega)
  have h2 : s % L < L := Int.emod_lt_of_pos s hL
  have h3 : 0 ≤ (-s) % L := Int.emod_nonneg (-s) (by omega)
  have h4 : (-s) % L < L := Int.emod_lt_of_pos (-s) hL
  have h5 : (s % L + (-s) % L) % L = 0 := by
    rw [← Int.add_emod]
    simp
  rcases lt_or_le (s % L + (-s) % L) L with hlt | hle
  · left
    rwa [Int.emod_eq_of_lt (by omega) hlt] at h5
  · right
    have h6 : (s % L + (-s) % L - L) % L = 0 := by
      have harith : s % L + (-s) % L - L = s % L + (-s) % L + L * (-1) := by
        ring
      rw [harith, Int.add_mul_emod_self_left]
      exact h5
    rw [Int.emod_eq_of_lt (by omega) (by omega)] at h6
    omega

theorem npRoll_inverse (l : List Nat) (s : Int) :
    npRoll (npRoll l s) (-s) = l := by
  unfold npRoll
  rw [List.length_rotate, List.rotate_rotate, neg_neg]
  rcases Nat.eq_zero_or_pos l.length with h0 | h0
  · rw [List.length_eq_zero.mp h0]
    simp
  · have hL : (0 : Int) < (l.length : Int) := by exact_mod_cast h0
    rcases emod_add_neg_emod s (l.length : Int) hL with hsum | hsum
    · have ha : ((-s) % (l.length : Int)).toNat = 0 := by
        have := Int.emod_nonneg s (by omega : (l.length : Int) ≠ 0)
        have := Int.emod_nonneg (-s) (by omega : (l.length : Int) ≠ 0)
        omega
      have hb : (s % (l.length : Int)).toNat = 0 := by
        have := Int.emod_nonneg s (by omega : (l.length : Int) ≠ 0)
        have := Int.emod_nonneg (-s) (by omega : (l.length : Int) ≠ 0)
        omega
      rw [ha, hb]
      simp
    · have ha : 0 ≤ (-s) % (l.length : Int) :=
        Int.emod_nonneg (-s) (by omega)
      have hb : 0 ≤ s % (l.length : Int) :=
        Int.emod_nonneg s (by omega)
      have hLsum : ((-s) % (l.length : Int)).toNat +
          (s % (l.length : Int)).toNat = l.length := by
        omega
      rw [hLsum, List.rotate_length]

theorem flatten_chunk {α : Type} (L : List (List α)) (k : Nat)
    (hk : ∀ s ∈ L, s.length = k) (I : Nat) (hI : I < L.length) :
    (L.flatten.drop (I * k)).take k = L.getD I [] := by
  induction L generalizing I with
  | nil => simp at hI
  | cons p P ih =>
    cases I with
    | zero =>
      simp only [List.flatten_cons, Nat.zero_mul, List.drop_zero,
        List.getD_cons_zero]
      have hp : p.length = k := hk p (by simp)
      rw [← hp, List.take_left]
    | succ I =>
      have hp : p.length = k := hk p (by simp)
      simp only [List.flatten_cons, List.getD_cons_succ]
      have harith : (I + 1) * k = p.length + I * k := by rw [hp]; ring
      rw [harith, List.drop_append]
      exact ih (fun s hs => hk s (by simp [hs])) I (by simpa using hI)

theorem flatten_slice {α : Type} (P : List (List α)) (i : Nat)
    (hi : i < P.length) :
    ((P.flatten.drop (((P.map List.length).take i).sum)).take
      ((P.map List.length).getD i 0)) = P.getD i [] := by
  induction P generalizing i with
  | nil => simp at hi
  | cons p Ps ih =>
    cases i with
    | zero =>
      simp only [List.map_cons, List.take_zero, List.sum_nil,
        List.flatten_cons, List.drop_zero, List.getD_cons_zero]
      rw [List.take_left]
    | succ i =>
      simp only [List.map_cons, List.take_succ_cons, List.sum_cons,
        List.flatten_cons, List.getD_cons_succ]
      rw [List.drop_append]
      exact ih i (by simpa using hi)

theorem scanl_getD (l : List Nat) (a i : Nat) (hi : i ≤ l.length) :
    (List.scanl (fun x y => x + y) a l).getD i 0 = a + (l.take i).sum := by
  induction l generalizing a i with
  | nil =>
    have : i = 0 := by simpa using hi
    subst this
    simp [List.scanl]
  | cons b t ih =>
    cases i with
    | zero => simp [List.scanl]
    | succ i =>
      rw [List.scanl_cons]
      simp only [List.singleton_append, List.getD_cons_succ,
        List.take_succ_cons, List.sum_cons]
      rw [ih (a + b) i (by simpa using hi)]
      omega

theorem sum_range_succ_list (f : Nat → Nat) (n : Nat) :
    ((List.range (n + 1)).map f).sum = ((List.range n).map f).sum + f n := by
  rw [List.range_succ]
  simp

theorem two_mul_sum_add_one (m : Nat) :
    2 * ((List.range m).map (fun d => d + 1)).sum = m * (m + 1) := by
  induction m with
  | zero => simp
  | succ m ih =>
    rw [sum_range_succ_list, Nat.mul_add, ih]
    ring

theorem map_sub_eq_reverse (m : Nat) :
    (List.range m).map (fun d => m - d) =
      ((List.range m).map (fun d => d + 1)).reverse := by
  apply List.ext_getElem (by simp)
  intro n h1 h2
  have hn : n < m := by simpa using h1
  rw [List.getElem_reverse]
  simp only [List.getElem_map, List.getElem_range, List.length_map,
    List.length_range]
  omega

theorem two_mul_sum_sub (m : Nat) :
    2 * ((List.range m).map (fun d => m - d)).sum = m * (m + 1) := by
  rw [map_sub_eq_reverse, List.sum_reverse, two_mul_sum_add_one]

theorem zigzagSeq_length (f : Nat → Nat → Nat) (n : Nat) :
    (zigzagSeq f n n).length = n * n := by
  unfold zigzagSeq
  rw [List.length_flatten, List.map_map]
  rcases Nat.eq_zero_or_pos n with rfl | hn
  · simp
  · obtain ⟨m, rfl⟩ : ∃ m, n = m + 1 := ⟨n - 1, by omega⟩
    have h2n : (m + 1) + (m + 1) - 1 = (m + 1) + m := by omega
    rw [h2n, List.range_add, List.map_append, List.sum_append, List.map_map]
    have e1 : (List.range (m + 1)).map
        ((fun l => l.length) ∘ (fun d => revIf (kEven (m+1) d)
          (diagList f (m+1) (m+1) d))) =
        (List.range (m + 1)).map (fun d => d + 1) := by
      apply List.map_congr_left
      intro d hd
      rw [List.mem_range] at hd
      simp only [Function.comp_apply]
      rw [revIf_length, diagList_length]
      rw [if_pos (by omega)]
      omega
    have e2 : (List.range m).map
        (((fun l => l.length) ∘ (fun d => revIf (kEven (m+1) d)
          (diagList f (m+1) (m+1) d))) ∘ (fun x => (m + 1) + x)) =
        (List.range m).map (fun j => m - j) := by
      apply List.map_congr_left
      intro j hj
      rw [List.mem_range] at hj
      simp only [Function.comp_apply]
      rw [revIf_length, diagList_length]
      rw [if_neg (by omega)]
      omega
    rw [e1, e2]
    have h1 := two_mul_sum_add_one (m + 1)
    have h2 := two_mul_sum_sub m
    apply Nat.eq_of_mul_eq_mul_left (show 0 < 2 by omega)
    rw [Nat.mul_add, h1, h2]
    ring

/-! ## The zig-zag rank exists for in-range coordinates -/

theorem findIdx?_isSome_of_mem {α : Type} (p : α → Bool) (l : List α)
    (a : α) (ha : a ∈ l) (hp : p a = true) :
    (l.findIdx? p).isSome = true := by
  by_contra hnone
  rw [Option.not_isSome_iff_eq_none, List.findIdx?_eq_none_iff] at hnone
  have := hnone a ha
  rw [hp] at this
  simp at this

theorem shift_isSome (h w x y : Nat) (hx : x < w) (hy : y < h) :
    ∃ r, shift h w x y = some r := by
  have hmem : (x, y) ∈ shiftList h w := by
    unfold shiftList
    rw [List.mem_insertionSort, List.mem_flatten]
    refine ⟨(List.range h).map (fun y2 => (x, y2)), ?_, ?_⟩
    · exact List.mem_map.mpr ⟨x, List.mem_range.mpr hx, rfl⟩
    · exact List.mem_map.mpr ⟨y, List.mem_range.mpr hy, rfl⟩
  have hsome := findIdx?_isSome_of_mem (fun p => decide (p = (x, y)))
    (shiftList h w) (x, y) hmem (by simp)
  rw [Option.isSome_iff_exists] at hsome
  exact hsome

/-! ## Unfolding diffuse and undiffuse -/

theorem diffuse_eq (B : Grid) (n x y r : Nat) (hh : B.height = n)
    (hw : B.width = n) (hn : 0 < n) (hr : shift n n x y = some r) :
    diffuse B x y = some ⟨n, n, fun i j =>
      (npRoll (zigzagSeq (flipData B) n n) (-((r : Int) - 1))).getD
        (j * n + i) 0⟩ := by
  have hdiv : (npRoll (zigzagSeq (flipData B) n n)
      (-((r : Int) - 1))).length / n = n := by
    unfold npRoll
    rw [List.length_rotate, zigzagSeq_length, Nat.mul_div_cancel_left n hn]
  unfold diffuse
  simp only [hh, hw, hr]
  rw [hdiv]

theorem undiffuse_mk (B : Grid) (x y r : Nat)
    (hr : shift B.height B.height x y = some r) :
    undiffuse B x y = some ⟨B.height, B.height, fun i j =>
      ((undiffuseDiags2 B r).getD (i + B.height - 1 - (B.height - 1 - j))
        []).getD (min (B.height - 1 - j) i) 0⟩ := by
  unfold undiffuse undiffuseDiags2 undiffuseDiags
  rw [hr]

theorem colRavel_mk (n : Nat) (ll : List Nat)
    (hlen : ll.length = n * n) :
    colRavel ⟨n, n, fun i j => ll.getD (j * n + i) 0⟩ = ll := by
  unfold colRavel
  have h1 : ∀ p : Nat, (p / n) * n + p % n = p := by
    intro p
    rw [Nat.mul_comm]
    exact Nat.div_add_mod p n
  calc (List.range (n * n)).map
        (fun p => ll.getD ((p / n) * n + p % n) 0)
      = (List.range (n * n)).map (fun p => ll.getD p 0) := by
        apply List.map_congr_left
        intro p _
        rw [h1 p]
    _ = ll := by
        rw [← hlen]
        exact list_eq_map_getD ll 0

/-! ## Parity of the diagonal reversals -/

theorem double_rev (n d : Nat) (he : n % 2 = 0) (l : List Nat) :
    revIf (d % 2 == 0) (revIf (kEven n d) l) = l.reverse := by
  have hk : (kEven n d = true) ↔ d % 2 = 1 := by
    unfold kEven
    rw [beq_iff_eq]
    omega
  rcases Nat.mod_two_eq_zero_or_one d with hd | hd
  · have hk2 : kEven n d = false := by
      rcases Bool.eq_false_or_eq_true (kEven n d) with h2 | h2
      · rw [hk] at h2; omega
      · exact h2
    simp [revIf, hk2, hd]
  · have hk2 : kEven n d = true := hk.mpr hd
    simp [revIf, hk2, hd]

theorem reverse_range_map_getD {α : Type} (f : Nat → α) (m pos : Nat)
    (hpos : pos < m) (d : α) :
    (((List.range m).map f).reverse).getD pos d = f (m - 1 - pos) := by
  rw [List.getD_eq_getElem _ _ (by simp [hpos]), List.getElem_reverse]
  simp only [List.getElem_map, List.getElem_range, List.length_map,
    List.length_range]

/-! ## Evaluating the undiffuse diagonals on a diffused block -/

theorem indices_length_sub_one (n : Nat) :
    (indices n).length - 1 = 2 * n - 1 := by
  unfold indices
  rw [List.length_scanl]
  unfold diagSizes
  simp

theorem indices_getD (n i : Nat) (hi : i ≤ 2 * n - 1) :
    (indices n).getD i 0 = ((diagSizes n).take i).sum := by
  unfold indices
  rw [scanl_getD (diagSizes n) 0 i (by unfold diagSizes; simp [hi])]
  omega

theorem zigzag_flatten (f : Nat → Nat → Nat) (n : Nat) (hn : 0 < n) :
    zigzagSeq f n n =
      ((List.range (2 * n - 1)).map
        (fun d => revIf (kEven n d) (diagList f n n d))).flatten := by
  unfold zigzagSeq
  rw [show n + n - 1 = 2 * n - 1 by omega]

theorem map_length_parts (f : Nat → Nat → Nat) (n : Nat) :
    ((List.range (2 * n - 1)).map
      (fun d => revIf (kEven n d) (diagList f n n d))).map List.length =
      diagSizes n := by
  rw [List.map_map]
  unfold diagSizes
  apply List.map_congr_left
  intro d _
  simp only [Function.comp_apply]
  rw [revIf_length, diagList_length, diagList_length]

theorem undiffuseDiags_eval (B : Grid) (n r : Nat) (hn : 0 < n)
    (rolled : List Nat) (hrlen : rolled.length = n * n)
    (hunroll : npRoll rolled ((r : Int) - 1) = zigzagSeq (flipData B) n n) :
    undiffuseDiags ⟨n, n, fun i j => rolled.getD (j * n + i) 0⟩ r =
      (List.range (2 * n - 1)).map
        (fun d => revIf (kEven n d) (diagList (flipData B) n n d)) := by
  unfold undiffuseDiags
  show (List.range ((indices n).length - 1)).map
      (fun i => ((npRoll (colRavel
            ⟨n, n, fun i j => rolled.getD (j * n + i) 0⟩)
          ((r : Int) - 1)).drop ((indices n).getD i 0)).take
        ((indices n).getD (i+1) 0 - (indices n).getD i 0)) = _
  rw [colRavel_mk n rolled hrlen, hunroll, zigzag_flatten _ n hn,
    indices_length_sub_one]
  apply List.ext_getElem (by simp)
  intro d h1 h2
  rw [List.length_map, List.length_range] at h1
  simp only [List.getElem_map, List.getElem_range]
  have hP : d < ((List.range (2 * n - 1)).map
      (fun d => revIf (kEven n d) (diagList (flipData B) n n d))).length := by
    simp [h1]
  have hd1 : (indices n).getD d 0 =
      ((((List.range (2 * n - 1)).map
        (fun d => revIf (kEven n d) (diagList (flipData B) n n d))).map
          List.length).take d).sum := by
    rw [map_length_parts, indices_getD n d (by omega)]
  have hsz : d < (diagSizes n).length := by
    unfold diagSizes
    simp [h1]
  have hd2 : (indices n).getD (d + 1) 0 - (indices n).getD d 0 =
      (((List.range (2 * n - 1)).map
        (fun d => revIf (kEven n d) (diagList (flipData B) n n d))).map
          List.length).getD d 0 := by
    rw [map_length_parts, indices_getD n (d + 1) (by omega),
      indices_getD n d (by omega)]
    rw [List.sum_take_succ _ d hsz]
    rw [List.getD_eq_getElem _ _ hsz]
    omega
  rw [hd2, hd1, flatten_slice _ d hP]
  rw [List.getD_eq_getElem _ _ hP]
  simp

theorem undiffuseDiags2_eval (B : Grid) (n r : Nat) (he : n % 2 = 0)
    (Dg : Grid)
    (hdiags : undiffuseDiags Dg r =
      (List.range (2 * n - 1)).map
        (fun d => revIf (kEven n d) (diagList (flipData B) n n d))) :
    undiffuseDiags2 Dg r =
      (List.range (2 * n - 1)).map
        (fun d => (diagList (flipData B) n n d).reverse) := by
  unfold undiffuseDiags2
  rw [hdiags, List.length_map, List.length_range]
  apply List.map_congr_left
  intro d hd
  rw [List.mem_range] at hd
  rw [getD_range_map _ _ d hd]
  exact double_rev n d he _

/-! ## The per-block round trip for even block sizes -/

set_option maxHeartbeats 1000000 in
theorem du_spec (B : Grid) (n x y : Nat) (hh : B.height = n)
    (hw : B.width = n) (hx : x < n) (hy : y < n) (he : n % 2 = 0) :
    ∃ D, diffuse B x y = some D ∧ D.height = n ∧ D.width = n ∧
      ∃ U, undiffuse D x y = some U ∧ U.height = n ∧ U.width = n ∧
        ∀ i, i < n → ∀ j, j < n → U.data i j = B.data i j := by
  have hn : 0 < n := by omega
  obtain ⟨r, hr⟩ := shift_isSome n n x y hx hy
  have hrlen : (npRoll (zigzagSeq (flipData B) n n)
      (-((r : Int) - 1))).length = n * n := by
    unfold npRoll
    rw [List.length_rotate]
    exact zigzagSeq_length _ n
  have hdif := diffuse_eq B n x y r hh hw hn hr
  have hunroll : npRoll (npRoll (zigzagSeq (flipData B) n n)
      (-((r : Int) - 1))) ((r : Int) - 1) = zigzagSeq (flipData B) n n := by
    have h2 := npRoll_inverse (zigzagSeq (flipData B) n n) (-((r : Int) - 1))
    rwa [neg_neg] at h2
  have hdiags := undiffuseDiags_eval B n r hn
    (npRoll (zigzagSeq (flipData B) n n) (-((r : Int) - 1))) hrlen hunroll
  have hdiags2 := undiffuseDiags2_eval B n r he _ hdiags
  refine ⟨_, hdif, rfl, rfl, ?_⟩
  rw [undiffuse_mk ⟨n, n, fun i j =>
      (npRoll (zigzagSeq (flipData B) n n) (-((r : Int) - 1))).getD
        (j * n + i) 0⟩ x y r hr]
  refine ⟨_, rfl, rfl, rfl, ?_⟩
  intro i hi j hj
  show ((undiffuseDiags2 ⟨n, n, fun i j =>
      (npRoll (zigzagSeq (flipData B) n n) (-((r : Int) - 1))).getD
        (j * n + i) 0⟩ r).getD (i + n - 1 - (n - 1 - j)) []).getD
      (min (n - 1 - j) i) 0 = B.data i j
  rw [hdiags2]
  rw [show i + n - 1 - (n - 1 - j) = i + j by omega]
  rw [getD_range_map _ (2 * n - 1) (i + j) (by omega) []]
  by_cases hcase : i + j + 1 ≤ n
  · rw [Nat.min_eq_right (by omega : i ≤ n - 1 - j)]
    have hdl : diagList (flipData B) n n (i + j) =
        (List.range (i + j + 1)).map
          (fun t => flipData B (t + (n - 1 - (i + j))) t) := by
      unfold diagList
      rw [if_pos hcase, Nat.min_eq_left hcase]
    rw [hdl, reverse_range_map_getD _ _ i (by omega) 0]
    rw [show i + j + 1 - 1 - i = j by omega]
    unfold flipData
    rw [hh]
    rw [show n - 1 - (j + (n - 1 - (i + j))) = i by omega]
  · rw [Nat.min_eq_left (by omega : n - 1 - j ≤ i)]
    have hdl : diagList (flipData B) n n (i + j) =
        (List.range (n + n - 1 - (i + j))).map
          (fun t => flipData B t (t + ((i + j) + 1 - n))) := by
      unfold diagList
      rw [if_neg (by omega), Nat.min_eq_right (by omega)]
    rw [hdl, reverse_range_map_getD _ _ (n - 1 - j) (by omega) 0]
    rw [show n + n - 1 - (i + j) - 1 - (n - 1 - j) = n - 1 - i by omega]
    unfold flipData
    rw [hh]
    rw [show n - 1 - i + (i + j + 1 - n) = j by omega]
    rw [show n - 1 - (n - 1 - i) = i by omega]

/-! ## Padding and partition lemmas -/

theorem padGrid_height_dvd (g : Grid) (b : Nat) (hb : 0 < b) :
    b ∣ (padGrid g b).height := by
  unfold padGrid
  simp only
  by_cases hmod : g.height % b = 0
  · rw [if_pos hmod]
    simpa using Nat.dvd_of_mod_eq_zero hmod
  · rw [if_neg hmod]
    have h1 := Nat.div_add_mod g.height b
    have h2 : g.height % b < b := Nat.mod_lt _ hb
    refine ⟨g.height / b + 1, ?_⟩
    rw [Nat.mul_succ]
    omega

theorem padGrid_height_ge (g : Grid) (b : Nat) :
    g.height ≤ (padGrid g b).height := by
  unfold padGrid
  simp only
  split <;> omega

theorem padGrid_square (g : Grid) (b : Nat) (hsq : g.height = g.width) :
    (padGrid g b).height = (padGrid g b).width := by
  unfold padGrid
  simp only
  rw [hsq]

theorem padGrid_exact (g : Grid) (b : Nat) (hdvd : b ∣ g.height) :
    (padGrid g b).height = g.height := by
  have hmod : g.height % b = 0 := by
    rcases hdvd with ⟨c, hc⟩
    rw [hc, Nat.mul_mod_right]
  unfold padGrid
  simp only
  rw [if_pos hmod]
  omega

theorem padGrid_data (g : Grid) (b i j : Nat) (hi : i < g.height)
    (hj : j < g.width) : (padGrid g b).data i j = g.data i j := by
  unfold padGrid
  simp [hi, hj]

theorem pyRange_blocks (H b : Nat) (hb : 0 < b) (hdvd : b ∣ H) :
    pyRange ((H : Int) - b + 1) b = (List.range (H / b)).map (fun i => i * b) := by
  obtain ⟨m, rfl⟩ := hdvd
  cases m with
  | zero =>
    unfold pyRange
    rw [if_neg (by push_cast; omega)]
    simp
  | succ k =>
    unfold pyRange
    have hle : b ≤ b * (k + 1) := Nat.le_mul_of_pos_right b (by omega)
    have hle2 : (b : Int) ≤ ((b * (k + 1) : Nat) : Int) := by exact_mod_cast hle
    rw [if_pos ⟨by omega, hb⟩]
    have hsub : b * (k + 1) - b = b * k := by
      rw [Nat.mul_succ]
      omega
    have h1 : ((b * (k + 1) : Nat) : Int) - b + 1 - 1 = ((b * k : Nat) : Int) := by
      rw [← hsub, Nat.cast_sub hle]
      ring
    rw [h1, ← Int.ofNat_ediv, Int.toNat_natCast,
      Nat.mul_div_cancel_left k hb, Nat.mul_div_cancel_left (k + 1) hb]

theorem pyRange_chunks (m k : Nat) (hk : 0 < k) :
    pyRange ((m * k : Nat) : Int) k = (List.range m).map (fun i => i * k) := by
  cases m with
  | zero =>
    unfold pyRange
    rw [if_neg (by push_cast; omega)]
    simp
  | succ t =>
    unfold pyRange
    have hle : k ≤ (t + 1) * k := Nat.le_mul_of_pos_left k (by omega)
    have hle2 : (k : Int) ≤ (((t + 1) * k : Nat) : Int) := by exact_mod_cast hle
    rw [if_pos ⟨by omega, hk⟩]
    have h1 : (((t + 1) * k : Nat) : Int) - 1 = (((t + 1) * k - 1 : Nat) : Int) := by
      rw [Nat.cast_sub (by omega : 1 ≤ (t + 1) * k)]
      simp
    have h2 : ((t + 1) * k - 1) / k = t := by
      have h3 : (t + 1) * k - 1 = k - 1 + k * t := by
        rw [Nat.succ_mul, Nat.mul_comm t k]
        omega
      rw [h3, Nat.add_mul_div_left _ _ hk, Nat.div_eq_of_lt (by omega)]
      omega
    rw [h1, ← Int.ofNat_ediv, Int.toNat_natCast, h2]

theorem blocks_eq (g : Grid) (b : Nat) (hb : 0 < b)
    (hsq : g.height = g.width) :
    blocks g b = some ((((List.range ((padGrid g b).height / b)).map
      (fun I => (List.range ((padGrid g b).height / b)).map
        (fun J => subBlock (padGrid g b) (I * b) (J * b) b))).flatten,
      ((padGrid g b).height / b, (padGrid g b).height / b))) := by
  unfold blocks
  rw [if_neg (by omega : ¬ b = 0)]
  have hWH : (padGrid g b).width = (padGrid g b).height :=
    (padGrid_square g b hsq).symm
  rw [hWH, pyRange_blocks _ b hb (padGrid_height_dvd g b hb)]
  simp only [List.map_map]
  refine congrArg (fun ll : List (List Grid) => some (ll.flatten,
    ((padGrid g b).height / b, (padGrid g b).height / b))) ?_
  apply List.map_congr_left
  intro I _
  simp only [Function.comp_apply]
  apply List.map_congr_left
  intro J _
  simp only [Function.comp_apply]

/-! ## hstack / vstack indexing -/

theorem sum_map_const_nat {α : Type} (l : List α) (c : Nat) :
    (l.map (fun _ => c)).sum = l.length * c := by
  induction l with
  | nil => simp
  | cons a t ih => simp [ih, Nat.succ_mul, Nat.add_comm]

theorem hstackL_width (l : List Grid) (b : Nat)
    (hw : ∀ g ∈ l, g.width = b) : (hstackL l).width = b * l.length := by
  induction l with
  | nil => simp [hstackL, emptyGrid]
  | cons g t ih =>
    show (hstack2 g (hstackL t)).width = b * (t.length + 1)
    unfold hstack2
    simp only
    rw [hw g (by simp), ih (fun g2 hg2 => hw g2 (by simp [hg2]))]
    ring

theorem hstackL_height (l : List Grid) (hne : l ≠ []) :
    (hstackL l).height = (l.getD 0 emptyGrid).height := by
  cases l with
  | nil => simp at hne
  | cons g t => rfl

theorem hstackL_data (l : List Grid) (b : Nat) (hb : 0 < b)
    (hw : ∀ g ∈ l, g.width = b) (i j : Nat) (hj : j < b * l.length) :
    (hstackL l).data i j = (l.getD (j / b) emptyGrid).data i (j % b) := by
  induction l generalizing j with
  | nil => simp at hj
  | cons g t ih =>
    show (hstack2 g (hstackL t)).data i j = _
    unfold hstack2
    simp only
    have hgb : g.width = b := hw g (by simp)
    by_cases hcase : j < g.width
    · rw [if_pos hcase]
      have hjb : j < b := by omega
      rw [Nat.div_eq_of_lt hjb, Nat.mod_eq_of_lt hjb]
      simp
    · rw [if_neg hcase]
      have hjb : b ≤ j := by omega
      have hdiv : j / b = (j - b) / b + 1 := by
        obtain ⟨u, hu⟩ : ∃ u, j = u + b := ⟨j - b, by omega⟩
        subst hu
        rw [Nat.add_div_right u hb]
        simp
      have hmod : j % b = (j - b) % b := by
        obtain ⟨u, hu⟩ : ∃ u, j = u + b := ⟨j - b, by omega⟩
        subst hu
        rw [Nat.add_mod_right]
        simp
      rw [hgb, hdiv, hmod]
      simp only [List.getD_cons_succ]
      apply ih (fun g2 hg2 => hw g2 (by simp [hg2]))
      have hmul : b * (g :: t).length = b * t.length + b := by
        rw [List.length_cons, Nat.mul_succ]
      omega

theorem vstackL_height (l : List Grid) (b : Nat)
    (hh : ∀ g ∈ l, g.height = b) : (vstackL l).height = b * l.length := by
  induction l with
  | nil => simp [vstackL, emptyGrid]
  | cons g t ih =>
    show (vstack2 g (vstackL t)).height = b * (t.length + 1)
    unfold vstack2
    simp only
    rw [hh g (by simp), ih (fun g2 hg2 => hh g2 (by simp [hg2]))]
    ring

theorem vstackL_width (l : List Grid) (hne : l ≠ []) :
    (vstackL l).width = (l.getD 0 emptyGrid).width := by
  cases l with
  | nil => simp at hne
  | cons g t => rfl

theorem vstackL_data (l : List Grid) (b : Nat) (hb : 0 < b)
    (hh : ∀ g ∈ l, g.height = b) (i j : Nat) (hi : i < b * l.length) :
    (vstackL l).data i j = (l.getD (i / b) emptyGrid).data (i % b) j := by
  induction l generalizing i with
  | nil => simp at hi
  | cons g t ih =>
    show (vstack2 g (vstackL t)).data i j = _
    unfold vstack2
    simp only
    have hgb : g.height = b := hh g (by simp)
    by_cases hcase : i < g.height
    · rw [if_pos hcase]
      have hib : i < b := by omega
      rw [Nat.div_eq_of_lt hib, Nat.mod_eq_of_lt hib]
      simp
    · rw [if_neg hcase]
      have hib : b ≤ i := by omega
      have hdiv : i / b = (i - b) / b + 1 := by
        obtain ⟨u, hu⟩ : ∃ u, i = u + b := ⟨i - b, by omega⟩
        subst hu
        rw [Nat.add_div_right u hb]
        simp
      have hmod : i % b = (i - b) % b := by
        obtain ⟨u, hu⟩ : ∃ u, i = u + b := ⟨i - b, by omega⟩
        subst hu
        rw [Nat.add_mod_right]
        simp
      rw [hgb, hdiv, hmod]
      simp only [List.getD_cons_succ]
      apply ih (fun g2 hg2 => hh g2 (by simp [hg2]))
      have hmul : b * (g :: t).length = b * t.length + b := by
        rw [List.length_cons, Nat.mul_succ]
      omega

/-! ## Evaluating merge on a row-major block list -/

theorem merge_eval (m b : Nat) (hm : 0 < m) (hb : 0 < b)
    (blkf : Nat → Nat → Grid)
    (hdims : ∀ I J, I < m → J < m →
      (blkf I J).height = b ∧ (blkf I J).width = b)
    (blist : List Grid)
    (hblist : blist = ((List.range m).map
      (fun I => (List.range m).map (fun J => blkf I J))).flatten) :
    (merge blist (m, m)).height = b * m ∧
    (merge blist (m, m)).width = b * m ∧
    ∀ i j, i < b * m → j < b * m →
      (merge blist (m, m)).data i j =
        (blkf (i / b) (j / b)).data (i % b) (j % b) := by
  subst hblist
  set LL := (List.range m).map
    (fun I => (List.range m).map (fun J => blkf I J)) with hLL
  have hlen : LL.flatten.length = m * m := by
    rw [List.length_flatten, hLL, List.map_map]
    have hconst : (List.range m).map
        (List.length ∘ fun I => (List.range m).map (blkf I)) =
        (List.range m).map (fun _ => m) := by
      apply List.map_congr_left
      intro I _
      simp
    rw [hconst, sum_map_const_nat]
    simp
  have hchunk : ∀ I, I < m →
      (LL.flatten.drop (I * m)).take m = (List.range m).map (blkf I) := by
    intro I hI
    have huni : ∀ s ∈ LL, s.length = m := by
      intro s hs
      rw [hLL] at hs
      obtain ⟨a, _, rfl⟩ := List.mem_map.mp hs
      simp
    have hIlen : I < LL.length := by rw [hLL]; simp [hI]
    rw [flatten_chunk LL m huni I hIlen, hLL, getD_range_map _ m I hI]
  unfold merge
  dsimp only
  rw [hlen, pyRange_chunks m m hm, List.map_map]
  have hrows : (List.range m).map
      ((fun i => hstackL ((LL.flatten.drop i).take m)) ∘ (fun i => i * m)) =
      (List.range m).map (fun I => hstackL ((List.range m).map (blkf I))) := by
    apply List.map_congr_left
    intro I hI
    rw [List.mem_range] at hI
    simp only [Function.comp_apply]
    rw [hchunk I hI]
  rw [hrows]
  have hinner : ∀ I, I < m → ∀ g ∈ (List.range m).map (blkf I), g.width = b := by
    intro I hI g hg
    obtain ⟨J, hJ, rfl⟩ := List.mem_map.mp hg
    rw [List.mem_range] at hJ
    exact (hdims I J hI hJ).2
  have hrowdims : ∀ R ∈ (List.range m).map
      (fun I => hstackL ((List.range m).map (blkf I))), R.height = b := by
    intro R hR
    obtain ⟨I, hI, rfl⟩ := List.mem_map.mp hR
    rw [List.mem_range] at hI
    rw [hstackL_height _ (List.ne_nil_of_length_pos (by simp [hm]))]
    rw [getD_range_map (blkf I) m 0 hm]
    exact (hdims I 0 hI hm).1
  refine ⟨?_, ?_, ?_⟩
  · rw [vstackL_height _ b hrowdims]
    simp
  · rw [vstackL_width _ (List.ne_nil_of_length_pos (by simp [hm]))]
    rw [getD_range_map _ m 0 hm]
    rw [hstackL_width _ b (hinner 0 hm)]
    simp
  · intro i j hi hj
    have hib : i / b < m := by
      rw [Nat.div_lt_iff_lt_mul hb]
      rwa [Nat.mul_comm m b]
    have hjb : j / b < m := by
      rw [Nat.div_lt_iff_lt_mul hb]
      rwa [Nat.mul_comm m b]
    rw [vstackL_data _ b hb hrowdims i j (by simpa using hi)]
    rw [getD_range_map _ m (i / b) hib]
    rw [hstackL_data _ b hb (hinner (i / b) hib) (i % b) j (by simpa using hj)]
    rw [getD_range_map _ m (j / b) hjb]

/-! ## Helpers for assembling the round trip -/

theorem mapO_eq_map_of_isSome {α β : Type} (f : α → Option β) (l : List α)
    (d : β) (h : ∀ a ∈ l, (f a).isSome = true) :
    mapO f l = some (l.map (fun a => (f a).getD d)) := by
  induction l with
  | nil => simp [mapO]
  | cons a t ih =>
    have ha := h a (by simp)
    rw [Option.isSome_iff_exists] at ha
    obtain ⟨v, hv⟩ := ha
    unfold mapO
    rw [hv, Option.some_bind, ih (fun a2 h2 => h a2 (by simp [h2]))]
    simp [hv]

theorem block_div (I a b : Nat) (ha : a < b) : (I * b + a) / b = I := by
  rw [Nat.mul_comm, Nat.mul_add_div (by omega)]
  simp [Nat.div_eq_of_lt ha]

theorem block_mod (I a b : Nat) (ha : a < b) : (I * b + a) % b = a := by
  rw [Nat.mul_comm, Nat.mul_add_mod]
  exact Nat.mod_eq_of_lt ha

theorem du_spec2 (B : Grid) (n x y : Nat) (hh : B.height = n)
    (hw : B.width = n) (hx : x < n) (hy : y < n) (he : n % 2 = 0) :
    diffuse B x y = some ((diffuse B x y).getD emptyGrid) ∧
    ((diffuse B x y).getD emptyGrid).height = n ∧
    ((diffuse B x y).getD emptyGrid).width = n ∧
    undiffuse ((diffuse B x y).getD emptyGrid) x y =
      some ((undiffuse ((diffuse B x y).getD emptyGrid) x y).getD emptyGrid) ∧
    ((undiffuse ((diffuse B x y).getD emptyGrid) x y).getD emptyGrid).height = n ∧
    ((undiffuse ((diffuse B x y).getD emptyGrid) x y).getD emptyGrid).width = n ∧
    ∀ i, i < n → ∀ j, j < n →
      ((undiffuse ((diffuse B x y).getD emptyGrid) x y).getD emptyGrid).data i j
        = B.data i j := by
  obtain ⟨D, hD, hDh, hDw, U, hU, hUh, hUw, hUd⟩ :=
    du_spec B n x y hh hw hx hy he
  rw [hD]
  simp only [Option.getD_some]
  rw [hU]
  simp only [Option.getD_some]
  exact ⟨trivial, hDh, hDw, trivial, hUh, hUw, hUd⟩

theorem undiffuse_congr (A B : Grid) (hh : A.height = B.height)
    (hw : A.width = B.width)
    (hd : ∀ i, i < A.height → ∀ j, j < A.width → A.data i j = B.data i j)
    (x y : Nat) : undiffuse A x y = undiffuse B x y := by
  have hcol : colRavel A = colRavel B := by
    unfold colRavel
    rw [hh, hw]
    apply List.map_congr_left
    intro p hp
    rw [List.mem_range] at hp
    rcases Nat.eq_zero_or_pos B.height with h0 | h0
    · rw [h0] at hp
      simp at hp
    · apply hd
      · rw [hh]
        exact Nat.mod_lt _ h0
      · rw [hw]
        rw [Nat.div_lt_iff_lt_mul h0]
        exact hp
  unfold undiffuse
  rw [hh, hcol]

theorem padGrid_congr (A B : Grid) (hAB : A.Eqv B) (b : Nat) :
    padGrid A b = padGrid B b := by
  obtain ⟨hh, hw, hd⟩ := hAB
  unfold padGrid
  rw [hh, hw]
  congr 1
  funext i j
  by_cases hcase : i < B.height ∧ j < B.width
  · rw [if_pos hcase, if_pos hcase]
    exact hd i (by omega) j (by omega)
  · rw [if_neg hcase, if_neg hcase]

theorem blocks_congr (A B : Grid) (hAB : A.Eqv B) (bs : Nat) :
    blocks A bs = blocks B bs := by
  unfold blocks
  rw [padGrid_congr A B hAB bs]

theorem decRound_congr (bss xrs yrs : List Nat) (height width : Nat)
    (A B : Grid) (hAB : A.Eqv B) (rnd : Nat) :
    decRound bss xrs yrs height width A rnd =
      decRound bss xrs yrs height width B rnd := by
  unfold decRound
  congr 1
  funext bs
  rw [blocks_congr A B hAB bs]

/-! ## One encryption round followed by one decryption round -/

set_option maxHeartbeats 1600000 in
theorem round_trip (g : Grid) (h b x y rnd : Nat)
    (bss xrs yrs : List Nat)
    (hgh : g.height = h) (hgw : g.width = h) (hpos : 0 < h)
    (hb : bss.get? rnd = some b) (hx : xrs.get? rnd = some x)
    (hy : yrs.get? rnd = some y)
    (hdvd : b ∣ h) (heven : b % 2 = 0) (hxb : x < b) (hyb : y < b) :
    ∃ ge, encRound bss xrs yrs h h g rnd = some ge ∧
      ge.height = h ∧ ge.width = h ∧
      ∃ gd, decRound bss xrs yrs h h ge rnd = some gd ∧
        gd.height = h ∧ gd.width = h ∧
        ∀ i, i < h → ∀ j, j < h → gd.data i j = g.data i j := by
  have hb0 : 0 < b := by
    rcases Nat.eq_zero_or_pos b with rfl | hb0
    · rcases hdvd with ⟨c, hc⟩
      omega
    · exact hb0
  have hmb : b * (h / b) = h := Nat.mul_div_cancel' hdvd
  have hm : 0 < h / b := by
    rcases Nat.eq_zero_or_pos (h / b) with h0 | h1
    · rw [h0, Nat.mul_zero] at hmb
      omega
    · exact h1
  set m := h / b with hm_def
  set P := padGrid g b with hP_def
  have hsqg : g.height = g.width := by rw [hgh, hgw]
  have hPh : P.height = h := by
    rw [hP_def, padGrid_exact g b (by rw [hgh]; exact hdvd), hgh]
  have hblocks := blocks_eq g b hb0 hsqg
  rw [← hP_def, hPh] at hblocks
  set blistE := ((List.range m).map (fun I => (List.range m).map
    (fun J => subBlock P (I * b) (J * b) b))).flatten with hbE_def
  have hdu := fun (I J : Nat) =>
    du_spec2 (subBlock P (I * b) (J * b) b) b x y rfl rfl hxb hyb heven
  -- every block diffuses
  have hall : ∀ blk ∈ blistE, (diffuse blk x y).isSome = true := by
    intro blk hblk
    rw [hbE_def, List.mem_flatten] at hblk
    obtain ⟨row, hrow, hblk2⟩ := hblk
    obtain ⟨I, hI, rfl⟩ := List.mem_map.mp hrow
    obtain ⟨J, hJ, rfl⟩ := List.mem_map.mp hblk2
    have hd1 := (hdu I J).1
    rw [hd1]
    rfl
  have hmapO : mapO (fun blk => diffuse blk x y) blistE =
      some (blistE.map (fun blk => (diffuse blk x y).getD emptyGrid)) :=
    mapO_eq_map_of_isSome _ _ emptyGrid hall
  have hencEq : encRound bss xrs yrs h h g rnd =
      some (crop (merge (blistE.map
        (fun blk => (diffuse blk x y).getD emptyGrid)) (m, m)) h h) := by
    unfold encRound
    rw [hb, Option.some_bind, hblocks, Option.some_bind]
    simp only [hx, hy, Option.some_bind]
    rw [hmapO, Option.some_bind]
  -- structure of the diffused list
  have hstruct : blistE.map (fun blk => (diffuse blk x y).getD emptyGrid) =
      ((List.range m).map (fun I => (List.range m).map
        (fun J => (diffuse (subBlock P (I * b) (J * b) b) x y).getD
          emptyGrid))).flatten := by
    rw [hbE_def]
    simp only [List.map_flatten, List.map_map]
    congr 1
    apply List.map_congr_left
    intro I _
    simp only [Function.comp_apply, List.map_map]
    rfl
  have hmerge := merge_eval m b hm hb0
    (fun I J => (diffuse (subBlock P (I * b) (J * b) b) x y).getD emptyGrid)
    (fun I J _ _ => ⟨(hdu I J).2.1, (hdu I J).2.2.1⟩)
    (blistE.map (fun blk => (diffuse blk x y).getD emptyGrid)) hstruct
  obtain ⟨hmh, hmw, hmdata⟩ := hmerge
  set ge := crop (merge (blistE.map
    (fun blk => (diffuse blk x y).getD emptyGrid)) (m, m)) h h with hge_def
  have hgeh : ge.height = h := by
    rw [hge_def]
    unfold crop
    simp only
    rw [hmh, hmb]
    exact Nat.min_self h
  have hgew : ge.width = h := by
    rw [hge_def]
    unfold crop
    simp only
    rw [hmw, hmb]
    exact Nat.min_self h
  have hgedata : ∀ i j, i < h → j < h → ge.data i j =
      ((diffuse (subBlock P ((i / b) * b) ((j / b) * b) b) x y).getD
        emptyGrid).data (i % b) (j % b) := by
    intro i j hi hj
    rw [hge_def]
    show (merge (blistE.map
      (fun blk => (diffuse blk x y).getD emptyGrid)) (m, m)).data i j = _
    rw [hmdata i j (by omega) (by omega)]
  refine ⟨ge, hencEq, hgeh, hgew, ?_⟩
  -- decryption round
  have hsqge : ge.height = ge.width := by rw [hgeh, hgew]
  have hPgeh : (padGrid ge b).height = h := by
    rw [padGrid_exact ge b (by rw [hgeh]; exact hdvd), hgeh]
  have hblocksD := blocks_eq ge b hb0 hsqge
  rw [hPgeh] at hblocksD
  set blistD := ((List.range m).map (fun I => (List.range m).map
    (fun J => subBlock (padGrid ge b) (I * b) (J * b) b))).flatten
    with hbD_def
  -- each decryption block equals the corresponding diffused block
  have hblk : ∀ I J, I < m → J < m →
      undiffuse (subBlock (padGrid ge b) (I * b) (J * b) b) x y =
      undiffuse ((diffuse (subBlock P (I * b) (J * b) b) x y).getD
        emptyGrid) x y := by
    intro I J hI hJ
    apply undiffuse_congr
    · exact ((hdu I J).2.1).symm
    · exact ((hdu I J).2.2.1).symm
    · intro a ha c hc
      have ha2 : a < b := ha
      have hc2 : c < b := hc
      have hIb : (I + 1) * b = I * b + b := Nat.succ_mul I b
      have hIle : (I + 1) * b ≤ m * b := Nat.mul_le_mul_right b (by omega)
      have hJb : (J + 1) * b = J * b + b := Nat.succ_mul J b
      have hJle : (J + 1) * b ≤ m * b := Nat.mul_le_mul_right b (by omega)
      have hmb2 : m * b = h := by rw [Nat.mul_comm]; exact hmb
      have hia : I * b + a < h := by omega
      have hjc : J * b + c < h := by omega
      show (padGrid ge b).data (I * b + a) (J * b + c) = _
      rw [padGrid_data ge b _ _ (by rw [hgeh]; exact hia)
        (by rw [hgew]; exact hjc)]
      rw [hgedata _ _ hia hjc]
      rw [block_div I a b ha2, block_div J c b hc2,
        block_mod I a b ha2, block_mod J c b hc2]
  have hallD : ∀ blk ∈ blistD, (undiffuse blk x y).isSome = true := by
    intro blk hblk2
    rw [hbD_def, List.mem_flatten] at hblk2
    obtain ⟨row, hrow, hblk3⟩ := hblk2
    obtain ⟨I, hI, rfl⟩ := List.mem_map.mp hrow
    obtain ⟨J, hJ, rfl⟩ := List.mem_map.mp hblk3
    rw [List.mem_range] at hI hJ
    rw [hblk I J hI hJ]
    have hd4 := (hdu I J).2.2.2.1
    rw [hd4]
    rfl
  have hmapOD : mapO (fun blk => undiffuse blk x y) blistD =
      some (blistD.map (fun blk => (undiffuse blk x y).getD emptyGrid)) :=
    mapO_eq_map_of_isSome _ _ emptyGrid hallD
  have hdecEq : decRound bss xrs yrs h h ge rnd =
      some (crop (merge (blistD.map
        (fun blk => (undiffuse blk x y).getD emptyGrid)) (m, m)) h h) := by
    unfold decRound
    rw [hb, Option.some_bind, hblocksD, Option.some_bind]
    simp only [hx, hy, Option.some_bind]
    rw [hmapOD, Option.some_bind]
  have hstructD : blistD.map (fun blk => (undiffuse blk x y).getD emptyGrid) =
      ((List.range m).map (fun I => (List.range m).map
        (fun J => (undiffuse (subBlock (padGrid ge b) (I * b) (J * b) b)
          x y).getD emptyGrid))).flatten := by
    rw [hbD_def]
    simp only [List.map_flatten, List.map_map]
    congr 1
    apply List.map_congr_left
    intro I _
    simp only [Function.comp_apply, List.map_map]
    rfl
  have hdimsD : ∀ I J, I < m → J < m →
      ((undiffuse (subBlock (padGrid ge b) (I * b) (J * b) b)
        x y).getD emptyGrid).height = b ∧
      ((undiffuse (subBlock (padGrid ge b) (I * b) (J * b) b)
        x y).getD emptyGrid).width = b := by
    intro I J hI hJ
    rw [hblk I J hI hJ]
    exact ⟨(hdu I J).2.2.2.2.1, (hdu I J).2.2.2.2.2.1⟩
  have hmergeD := merge_eval m b hm hb0
    (fun I J => (undiffuse (subBlock (padGrid ge b) (I * b) (J * b) b)
      x y).getD emptyGrid)
    hdimsD
    (blistD.map (fun blk => (undiffuse blk x y).getD emptyGrid)) hstructD
  obtain ⟨hmhD, hmwD, hmdataD⟩ := hmergeD
  refine ⟨_, hdecEq, ?_, ?_, ?_⟩
  · unfold crop
    simp only
    rw [hmhD, hmb]
    exact Nat.min_self h
  · unfold crop
    simp only
    rw [hmwD, hmb]
    exact Nat.min_self h
  · intro i hi j hj
    show (merge (blistD.map
      (fun blk => (undiffuse blk x y).getD emptyGrid)) (m, m)).data i j =
      g.data i j
    rw [hmdataD i j (by omega) (by omega)]
    show ((undiffuse (subBlock (padGrid ge b) ((i / b) * b) ((j / b) * b) b)
      x y).getD emptyGrid).data (i % b) (j % b) = g.data i j
    have hib : i / b < m := by
      rw [hm_def, Nat.div_lt_iff_lt_mul hb0]
      rw [Nat.mul_comm (h / b) b, hmb]
      exact hi
    have hjb : j / b < m := by
      rw [hm_def, Nat.div_lt_iff_lt_mul hb0]
      rw [Nat.mul_comm (h / b) b, hmb]
      exact hj
    rw [hblk (i / b) (j / b) hib hjb]
    have hmod_i : i % b < b := Nat.mod_lt _ hb0
    have hmod_j : j % b < b := Nat.mod_lt _ hb0
    rw [(hdu (i / b) (j / b)).2.2.2.2.2.2 (i % b) hmod_i (j % b) hmod_j]
    show P.data ((i / b) * b + i % b) ((j / b) * b + j % b) = g.data i j
    have hdm_i : (i / b) * b + i % b = i := by
      rw [Nat.mul_comm]
      exact Nat.div_add_mod i b
    have hdm_j : (j / b) * b + j % b = j := by
      rw [Nat.mul_comm]
      exact Nat.div_add_mod j b
    rw [hdm_i, hdm_j, hP_def, padGrid_data g b i j (by omega) (by omega)]

/-! ## Folding the rounds -/

theorem eqv_refl (A : Grid) : A.Eqv A := ⟨rfl, rfl, fun _ _ _ _ => rfl⟩

theorem foldO_append {ι : Type} (f : Grid → ι → Option Grid) (g : Grid)
    (l1 l2 : List ι) :
    foldO f g (l1 ++ l2) = (foldO f g l1).bind (fun g2 => foldO f g2 l2) := by
  induction l1 generalizing g with
  | nil => simp [foldO]
  | cons a t ih =>
    show (f g a).bind (fun g2 => foldO f g2 (t ++ l2)) = _
    cases hfa : f g a with
    | none => simp [foldO, hfa]
    | some g2 => simp [foldO, hfa, ih]

theorem foldD_congr (bss xrs yrs : List Nat) (h w : Nat) (l : List Nat)
    (A B : Grid) (hAB : A.Eqv B) (C : Grid)
    (hB : foldO (decRound bss xrs yrs h w) B l = some C) :
    ∃ C2, foldO (decRound bss xrs yrs h w) A l = some C2 ∧ C2.Eqv C := by
  cases l with
  | nil =>
    simp only [foldO, Option.some.injEq] at hB
    exact ⟨A, rfl, hB ▸ hAB⟩
  | cons r t =>
    show ∃ C2, ((decRound bss xrs yrs h w A r).bind
      (fun g2 => foldO (decRound bss xrs yrs h w) g2 t)) = some C2 ∧ C2.Eqv C
    rw [decRound_congr bss xrs yrs h w A B hAB r]
    revert hB
    show ((decRound bss xrs yrs h w B r).bind
      (fun g2 => foldO (decRound bss xrs yrs h w) g2 t)) = some C → _
    cases hd : decRound bss xrs yrs h w B r with
    | none => intro hB; simp at hB
    | some B2 =>
      rw [Option.some_bind]
      intro hB
      exact ⟨C, hB, eqv_refl C⟩

theorem get?_eq_some_getD {α : Type} (l : List α) (r : Nat)
    (hr : r < l.length) (d : α) : l.get? r = some (l.getD r d) := by
  rw [List.get?_eq_get hr, List.getD_eq_getElem _ _ hr]
  rfl

/-! ## The full diffusion pipeline round trip -/

theorem pipeline (bss xrs yrs : List Nat) (h : Nat) (hpos : 0 < h) :
    ∀ (k : Nat) (g : Grid), g.height = h → g.width = h →
    (∀ r, r < k → ∃ b x y, bss.get? r = some b ∧ xrs.get? r = some x ∧
      yrs.get? r = some y ∧ b ∣ h ∧ b % 2 = 0 ∧ x < b ∧ y < b) →
    ∃ ge, foldO (encRound bss xrs yrs h h) g (List.range k) = some ge ∧
      ge.height = h ∧ ge.width = h ∧
      ∃ gd, foldO (decRound bss xrs yrs h h) ge
          ((List.range k).reverse) = some gd ∧
        gd.height = h ∧ gd.width = h ∧
        ∀ i, i < h → ∀ j, j < h → gd.data i j = g.data i j := by
  intro k
  induction k with
  | zero =>
    intro g hgh hgw _
    rw [List.range_zero]
    exact ⟨g, rfl, hgh, hgw, g, rfl, hgh, hgw, fun _ _ _ _ => rfl⟩
  | succ k ih =>
    intro g hgh hgw hcond
    obtain ⟨ge1, hfe1, hge1h, hge1w, gdK, hfdK, hgdKh, hgdKw, hgdKdata⟩ :=
      ih g hgh hgw (fun r hr => hcond r (by omega))
    obtain ⟨b, x, y, hbk, hxk, hyk, hdvd, heven, hxb, hyb⟩ :=
      hcond k (by omega)
    obtain ⟨ge, hge, hgeh, hgew, gd1, hgd1, hgd1h, hgd1w, hgd1data⟩ :=
      round_trip ge1 h b x y k bss xrs yrs hge1h hge1w hpos hbk hxk hyk
        hdvd heven hxb hyb
    have hfe : foldO (encRound bss xrs yrs h h) g (List.range (k+1)) =
        some ge := by
      rw [List.range_succ, foldO_append, hfe1, Option.some_bind]
      show (encRound bss xrs yrs h h ge1 k).bind _ = some ge
      rw [hge, Option.some_bind]
      rfl
    refine ⟨ge, hfe, hgeh, hgew, ?_⟩
    have hrev : (List.range (k+1)).reverse = k :: (List.range k).reverse := by
      rw [List.range_succ, List.reverse_append]
      rfl
    have hEqv1 : gd1.Eqv ge1 := by
      refine ⟨by rw [hgd1h, hge1h], by rw [hgd1w, hge1w], ?_⟩
      intro i hi j hj
      exact hgd1data i (by rwa [hgd1h] at hi) j (by rwa [hgd1w] at hj)
    obtain ⟨gdF, hgdF, hgdFEqv⟩ := foldD_congr bss xrs yrs h h
      ((List.range k).reverse) gd1 ge1 hEqv1 gdK hfdK
    have hfd : foldO (decRound bss xrs yrs h h) ge
        ((List.range (k+1)).reverse) = some gdF := by
      rw [hrev]
      show (decRound bss xrs yrs h h ge k).bind _ = some gdF
      rw [hgd1, Option.some_bind]
      exact hgdF
    obtain ⟨hFh, hFw, hFdata⟩ := hgdFEqv
    refine ⟨gdF, hfd, by rw [hFh, hgdKh], by rw [hFw, hgdKw], ?_⟩
    intro i hi j hj
    rw [hFdata i (by omega) j (by omega)]
    exact hgdKdata i hi j hj

/-! ## Claim C2 (corrected): the diffusion round trip -/

/-- Claim C2, amended: for every square `n × n` block with `n` even and
every starting pair `(x, y)` with `x, y < n`,
`undiffuse(diffuse(block, x, y), x, y)` is defined and equals the block.
(For odd `n ≥ 3` the composite instead equals the transpose of the
block, as the counterexample shows, so the original claim fails.) -/
theorem C2_diffuse_undiffuse_amended (block : Grid) (n x y : Nat)
    (hh : block.height = n) (hw : block.width = n)
    (hx : x < n) (hy : y < n) (he : n % 2 = 0) :
    ∃ D U, diffuse block x y = some D ∧ undiffuse D x y = some U ∧
      U.Eqv block := by
  obtain ⟨D, hD, hDh, hDw, U, hU, hUh, hUw, hUd⟩ :=
    du_spec block n x y hh hw hx hy he
  refine ⟨D, U, hD, hU, ⟨by rw [hUh, hh], by rw [hUw, hw], ?_⟩⟩
  intro i hi j hj
  rw [hUh] at hi
  rw [hUw] at hj
  exact hUd i hi j hj

/-- Witness for `C2_diffuse_undiffuse_amended` on the 2×2 block with
entries 0..3 and starting pair (1, 1). -/
theorem C2_diffuse_undiffuse_amended_witness :
    ∃ D U, diffuse gridA 1 1 = some D ∧ undiffuse D 1 1 = some U ∧
      U.Eqv gridA :=
  C2_diffuse_undiffuse_amended gridA 2 1 1 rfl rfl (by decide) (by decide)
    (by decide)

/-! ## Claim C3 (corrected): partition and merge -/

/-- Claim C3, amended: for square grids, `merge` inverts `blocks` for any
positive block size — after cropping to the original dimensions in
general, and with no cropping when the block size divides the grid size.
(For non-square grids the claim fails: `merge` chunks the block list by
`shape[0]`, the block-row count, instead of the block-column count.) -/
theorem C3_partition_merge_amended (g : Grid) (b : Nat) (hb : 0 < b)
    (hsq : g.height = g.width) :
    ∃ bl m, blocks g b = some (bl, m, m) ∧
      (crop (merge bl (m, m)) g.height g.width).Eqv g ∧
      (b ∣ g.height → (merge bl (m, m)).Eqv g) := by
  have hblocks := blocks_eq g b hb hsq
  set P := padGrid g b with hP_def
  set m := P.height / b with hm_def
  set bl := ((List.range m).map (fun I => (List.range m).map
    (fun J => subBlock P (I * b) (J * b) b))).flatten with hbl_def
  have hPdvd : b ∣ P.height := padGrid_height_dvd g b hb
  have hPbm : b * m = P.height := Nat.mul_div_cancel' hPdvd
  have hge : g.height ≤ P.height := padGrid_height_ge g b
  refine ⟨bl, m, hblocks, ?_, ?_⟩
  all_goals rcases Nat.eq_zero_or_pos m with hm0 | hmpos
  case _ =>
    -- cropped identity, degenerate m = 0
    have hP0 : P.height = 0 := by rw [← hPbm, hm0, Nat.mul_zero]
    have hh0 : g.height = 0 := by omega
    have hw0 : g.width = 0 := by omega
    have hbl0 : bl = [] := by rw [hbl_def, hm0]; rfl
    rw [hbl0, hm0]
    exact ⟨by simp [crop, merge, pyRange, vstackL, emptyGrid, hh0],
      by simp [crop, merge, pyRange, vstackL, emptyGrid, hw0],
      fun i hi j hj => by
        simp [crop, merge, pyRange, vstackL, emptyGrid, hh0] at hi⟩
  case _ =>
    -- cropped identity, m > 0
    obtain ⟨hmh, hmw, hmd⟩ := merge_eval m b hmpos hb
      (fun I J => subBlock P (I * b) (J * b) b)
      (fun I J _ _ => ⟨rfl, rfl⟩) bl hbl_def
    have hdata : ∀ i j, i < g.height → j < g.width →
        (merge bl (m, m)).data i j = g.data i j := by
      intro i j hi hj
      have hhle : g.height ≤ b * m := by
        rw [hPbm]
        omega
      have hwle : g.width ≤ b * m := by
        rw [hPbm]
        omega
      rw [hmd i j (by omega) (by omega)]
      show P.data ((i / b) * b + i % b) ((j / b) * b + j % b) = g.data i j
      rw [show (i / b) * b + i % b = i from by
            rw [Nat.mul_comm]; exact Nat.div_add_mod i b,
          show (j / b) * b + j % b = j from by
            rw [Nat.mul_comm]; exact Nat.div_add_mod j b]
      exact padGrid_data g b i j hi hj
    have hch : (crop (merge bl (m, m)) g.height g.width).height = g.height := by
      unfold crop
      simp only
      rw [hmh]
      omega
    have hcw : (crop (merge bl (m, m)) g.height g.width).width = g.width := by
      unfold crop
      simp only
      rw [hmw]
      omega
    refine ⟨hch, hcw, ?_⟩
    intro i hi j hj
    rw [hch] at hi
    rw [hcw] at hj
    exact hdata i j hi hj
  case _ =>
    -- uncropped identity, degenerate m = 0
    intro hdvd
    have hP0 : P.height = 0 := by rw [← hPbm, hm0, Nat.mul_zero]
    have hh0 : g.height = 0 := by omega
    have hw0 : g.width = 0 := by omega
    have hbl0 : bl = [] := by rw [hbl_def, hm0]; rfl
    rw [hbl0, hm0]
    exact ⟨by simp [merge, pyRange, vstackL, emptyGrid, hh0],
      by simp [merge, pyRange, vstackL, emptyGrid, hw0],
      fun i hi j hj => by
        simp [merge, pyRange, vstackL, emptyGrid] at hi⟩
  case _ =>
    -- uncropped identity, m > 0
    intro hdvd
    have hPg : P.height = g.height := by
      rw [hP_def]
      exact padGrid_exact g b hdvd
    obtain ⟨hmh, hmw, hmd⟩ := merge_eval m b hmpos hb
      (fun I J => subBlock P (I * b) (J * b) b)
      (fun I J _ _ => ⟨rfl, rfl⟩) bl hbl_def
    have hbmg : b * m = g.height := by rw [hPbm, hPg]
    refine ⟨by omega, by omega, ?_⟩
    intro i hi j hj
    rw [hmh] at hi
    rw [hmw] at hj
    rw [hmd i j hi hj]
    show P.data ((i / b) * b + i % b) ((j / b) * b + j % b) = g.data i j
    rw [show (i / b) * b + i % b = i from by
          rw [Nat.mul_comm]; exact Nat.div_add_mod i b,
        show (j / b) * b + j % b = j from by
          rw [Nat.mul_comm]; exact Nat.div_add_mod j b]
    exact padGrid_data g b i j (by omega) (by omega)

/-- Witness for `C3_partition_merge_amended` on the 2×2 grid with block
size 2. -/
theorem C3_partition_merge_amended_witness :
    ∃ bl m, blocks gridA 2 = some (bl, m, m) ∧
      (crop (merge bl (m, m)) gridA.height gridA.width).Eqv gridA ∧
      ((2 : Nat) ∣ gridA.height → (merge bl (m, m)).Eqv gridA) :=
  C3_partition_merge_amended gridA 2 (by decide) (by decide)

/-! ## Claim C1 (corrected): the encryption/decryption round trip -/

/-- Claim C1, amended: with `permute = false`, for a square grid and a
key whose diffusion schedule gives, for every round used, an even block
size dividing the grid size and offsets strictly inside the block,
`decrypt(encrypt(grid, key, false, rounds), key, false, rounds)` equals
the grid. (The original unconditional claim fails: odd block sizes
return each block transposed, and block sizes that do not divide the
dimensions lose the data that diffusion moves into the cropped padding.) -/
theorem C1_roundtrip_amended (g : Grid) (key : List Char) (rounds : Nat)
    (bss xrs yrs : List Nat)
    (hsq : g.width = g.height) (hpos : 0 < g.height)
    (hdc : diffusion_characteristics key = some (bss, xrs, yrs))
    (hrounds : rounds ≤ 8)
    (hcond : ∀ r, r < rounds →
      bss.getD r 0 ∣ g.height ∧ bss.getD r 0 % 2 = 0 ∧
      xrs.getD r 0 < bss.getD r 0 ∧ yrs.getD r 0 < bss.getD r 0) :
    ∃ ge gd, encrypt g key false rounds = some ge ∧
      decrypt ge key false rounds = some gd ∧ gd.Eqv g := by
  have hlens : bss.length = 8 ∧ xrs.length = 8 ∧ yrs.length = 8 := by
    unfold diffusion_characteristics at hdc
    rw [Option.map_eq_some'] at hdc
    obtain ⟨l, hl, heq⟩ := hdc
    have hlen : l.length = 8 := by simpa using mapO_length _ _ _ hl
    have h1 : l.map (fun t => t.1) = bss := congrArg Prod.fst heq
    have h2 : l.map (fun t => t.2.1) = xrs :=
      congrArg Prod.fst (congrArg Prod.snd heq)
    have h3 : l.map (fun t => t.2.2) = yrs :=
      congrArg Prod.snd (congrArg Prod.snd heq)
    rw [← h1, ← h2, ← h3]
    simp [hlen]
  obtain ⟨hbl, hxl, hyl⟩ := hlens
  have hpip := pipeline bss xrs yrs g.height hpos rounds g rfl hsq ?hc
  case hc =>
    intro r hr
    obtain ⟨hdvd, heven, hxb, hyb⟩ := hcond r hr
    exact ⟨bss.getD r 0, xrs.getD r 0, yrs.getD r 0,
      get?_eq_some_getD bss r (by omega) 0,
      get?_eq_some_getD xrs r (by omega) 0,
      get?_eq_some_getD yrs r (by omega) 0,
      hdvd, heven, hxb, hyb⟩
  obtain ⟨ge, hfe, hgeh, hgew, gd, hfd, hgdh, hgdw, hdata⟩ := hpip
  refine ⟨ge, gd, ?_, ?_, ?_⟩
  · unfold encrypt
    rw [hdc, Option.some_bind]
    show (foldO (encRound bss xrs yrs g.height g.width) g
      (List.range rounds)).bind _ = some ge
    rw [hsq, hfe, Option.some_bind]
    rfl
  · unfold decrypt
    show ((some ge).bind (fun afterSubstitution =>
      (diffusion_characteristics key).bind _) : Option Grid) = some gd
    rw [Option.some_bind, hdc, Option.some_bind]
    show foldO (decRound bss xrs yrs ge.height ge.width) ge
      ((List.range rounds).reverse) = some gd
    rw [hgeh, hgew]
    exact hfd
  · refine ⟨by rw [hgdh], by rw [hgdw, hsq], ?_⟩
    intro i hi j hj
    rw [hgdh] at hi
    rw [hgdw] at hj
    exact hdata i hi j hj

/-- Witness for `C1_roundtrip_amended`: the 2×2 grid with entries 0..3,
the key `"10010…0"` (round 1: block size 2, offsets (1, 1)), one round. -/
theorem C1_roundtrip_amended_witness :
    ∃ ge gd, encrypt gridA key1001 false 1 = some ge ∧
      decrypt ge key1001 false 1 = some gd ∧ gd.Eqv gridA :=
  C1_roundtrip_amended gridA key1001 1
    [2, 0, 0, 0, 0, 0, 0, 0] [1, 0, 0, 0, 0, 0, 0, 0]
    [1, 0, 0, 0, 0, 0, 0, 0]
    (by decide) (by decide) (by decide) (by decide) (by decide)

/-! ## Dimension preservation through the pipelines (claim C4) -/

theorem mapO_mem {α β : Type} (f : α → Option β) (l : List α)
    (r : List β) (h : mapO f l = some r) :
    ∀ x ∈ r, ∃ a ∈ l, f a = some x := by
  induction l generalizing r with
  | nil =>
    replace h : some ([] : List β) = some r := h
    rw [← Option.some.inj h]
    intro x hx
    simp at hx
  | cons a t ih =>
    simp only [mapO, Option.bind_eq_some, Option.map_eq_some'] at h
    obtain ⟨b, hfa, r2, hr2, rfl⟩ := h
    intro x hx
    rcases List.mem_cons.mp hx with rfl | hx2
    · exact ⟨a, List.mem_cons_self a t, hfa⟩
    · obtain ⟨a2, ha2, hfa2⟩ := ih r2 hr2 x hx2
      exact ⟨a2, List.mem_cons_of_mem a ha2, hfa2⟩

theorem flatten_sq_length {α : Type} (f : Nat → Nat → α) (m : Nat) :
    (((List.range m).map (fun I => (List.range m).map
      (fun J => f I J))).flatten).length = m * m := by
  rw [List.length_flatten, List.map_map]
  have hconst : (List.range m).map
      (List.length ∘ fun I => (List.range m).map (fun J => f I J)) =
      (List.range m).map (fun _ => m) := by
    apply List.map_congr_left
    intro I _
    simp
  rw [hconst, sum_map_const_nat]
  simp

theorem getD_zero_mem {α : Type} (l : List α) (d : α) (hne : l ≠ []) :
    l.getD 0 d ∈ l := by
  cases l with
  | nil => exact absurd rfl hne
  | cons a t => simp

theorem merge_dims (blks : List Grid) (m b : Nat) (hm : 0 < m)
    (_hb : 0 < b) (hlen : blks.length = m * m)
    (hdims : ∀ g ∈ blks, g.height = b ∧ g.width = b) :
    (merge blks (m, m)).height = b * m ∧
      (merge blks (m, m)).width = b * m := by
  unfold merge
  dsimp only
  rw [hlen, pyRange_chunks m m hm, List.map_map]
  have hchunkmem : ∀ I, ∀ g2 ∈ (blks.drop (I * m)).take m, g2 ∈ blks :=
    fun I g2 hg2 => List.mem_of_mem_drop (List.mem_of_mem_take hg2)
  have hchunklen : ∀ I, I < m → ((blks.drop (I * m)).take m).length = m := by
    intro I hI
    rw [List.length_take, List.length_drop, hlen]
    have h1 : (I + 1) * m ≤ m * m := Nat.mul_le_mul (by omega) (Nat.le_refl m)
    have h2 : (I + 1) * m = I * m + m := by ring
    omega
  have hrowh : ∀ R ∈ (List.range m).map
      ((fun i => hstackL ((blks.drop i).take m)) ∘ (fun i => i * m)),
      R.height = b := by
    intro R hR
    obtain ⟨I, hI, rfl⟩ := List.mem_map.mp hR
    rw [List.mem_range] at hI
    simp only [Function.comp_apply]
    have hne : (blks.drop (I * m)).take m ≠ [] :=
      List.ne_nil_of_length_pos (by rw [hchunklen I hI]; omega)
    rw [hstackL_height _ hne]
    exact (hdims _ (hchunkmem I _ (getD_zero_mem _ emptyGrid hne))).1
  constructor
  · rw [vstackL_height _ b hrowh]
    simp
  · rw [vstackL_width _ (List.ne_nil_of_length_pos
      (by simp only [List.length_map, List.length_range]; omega))]
    rw [getD_range_map _ m 0 hm]
    show (hstackL ((blks.drop (0 * m)).take m)).width = b * m
    rw [hstackL_width _ b (fun g2 hg2 => (hdims _ (hchunkmem 0 g2 hg2)).2)]
    rw [hchunklen 0 hm]

theorem round_crop_dims (s : Grid) (H bs : Nat) (res : List Grid)
    (hH : 0 < H) (hsh : s.height = H) (hbs : 0 < bs)
    (hlen : res.length =
      (padGrid s bs).height / bs * ((padGrid s bs).height / bs))
    (hdims : ∀ d ∈ res, d.height = bs ∧ d.width = bs) :
    (crop (merge res ((padGrid s bs).height / bs,
      (padGrid s bs).height / bs)) H H).height = H ∧
    (crop (merge res ((padGrid s bs).height / bs,
      (padGrid s bs).height / bs)) H H).width = H := by
  set m := (padGrid s bs).height / bs with hmdef
  have hdvd : bs ∣ (padGrid s bs).height := padGrid_height_dvd s bs hbs
  have hge := padGrid_height_ge s bs
  have hPpos : 0 < (padGrid s bs).height := by omega
  have hmpos : 0 < m := Nat.div_pos (Nat.le_of_dvd hPpos hdvd) hbs
  have hbm : bs * m = (padGrid s bs).height := Nat.mul_div_cancel' hdvd
  obtain ⟨mh, mw⟩ := merge_dims res m bs hmpos hbs hlen hdims
  have hHbm : H ≤ bs * m := by omega
  constructor
  · show min (merge res (m, m)).height H = H
    omega
  · show min (merge res (m, m)).width H = H
    omega

theorem diffuse_dims (B : Grid) (x y n : Nat) (D : Grid)
    (hh : B.height = n) (hw : B.width = n) (hn : 0 < n)
    (h : diffuse B x y = some D) : D.height = n ∧ D.width = n := by
  have h2 := h
  unfold diffuse at h2
  split at h2
  · exact Option.noConfusion h2
  · next rank heq =>
    rw [hh, hw] at heq
    rw [diffuse_eq B n x y rank hh hw hn heq] at h
    have hD := Option.some.inj h
    exact ⟨by rw [← hD], by rw [← hD]⟩

theorem undiffuse_dims (B : Grid) (x y : Nat) (U : Grid)
    (h : undiffuse B x y = some U) :
    U.height = B.height ∧ U.width = B.height := by
  have h2 := h
  unfold undiffuse at h2
  split at h2
  · exact Option.noConfusion h2
  · next rank heq =>
    rw [undiffuse_mk B x y rank heq] at h
    have hD := Option.some.inj h
    exact ⟨by rw [← hD], by rw [← hD]⟩

theorem encRound_dims (bss xrs yrs : List Nat) (H : Nat) (hH : 0 < H)
    (s : Grid) (rnd : Nat) (s2 : Grid)
    (hsh : s.height = H) (hsw : s.width = H)
    (h : encRound bss xrs yrs H H s rnd = some s2) :
    s2.height = H ∧ s2.width = H := by
  unfold encRound at h
  simp only [Option.bind_eq_some] at h
  obtain ⟨bs, hbsget, pr, hpr, diffused, hdiff, hcrop⟩ := h
  have hs2 : s2 = crop (merge diffused pr.2) H H :=
    (Option.some.inj hcrop).symm
  have hbs : 0 < bs := by
    rcases Nat.eq_zero_or_pos bs with hbs0 | hbs1
    · unfold blocks at hpr
      rw [if_pos hbs0] at hpr
      exact Option.noConfusion hpr
    · exact hbs1
  have hsq : s.height = s.width := by rw [hsh, hsw]
  rw [blocks_eq s bs hbs hsq] at hpr
  have hpr2 : pr = ((((List.range ((padGrid s bs).height / bs)).map
      (fun I => (List.range ((padGrid s bs).height / bs)).map
        (fun J => subBlock (padGrid s bs) (I * bs) (J * bs) bs))).flatten),
      ((padGrid s bs).height / bs, (padGrid s bs).height / bs)) :=
    (Option.some.inj hpr).symm
  have hpr21 : pr.1 = (((List.range ((padGrid s bs).height / bs)).map
      (fun I => (List.range ((padGrid s bs).height / bs)).map
        (fun J => subBlock (padGrid s bs) (I * bs) (J * bs) bs))).flatten) := by
    rw [hpr2]
  have hpr22 : pr.2 = ((padGrid s bs).height / bs,
      (padGrid s bs).height / bs) := by
    rw [hpr2]
  have hlen : diffused.length =
      (padGrid s bs).height / bs * ((padGrid s bs).height / bs) := by
    have h1 := mapO_length _ _ _ hdiff
    rw [h1, hpr21]
    exact flatten_sq_length _ _
  have hdims : ∀ d ∈ diffused, d.height = bs ∧ d.width = bs := by
    intro d hd
    obtain ⟨blk, hblkmem, hf⟩ := mapO_mem _ _ _ hdiff d hd
    rw [hpr21] at hblkmem
    rw [List.mem_flatten] at hblkmem
    obtain ⟨row, hrow, hblk⟩ := hblkmem
    obtain ⟨I, _, rfl⟩ := List.mem_map.mp hrow
    obtain ⟨J, _, rfl⟩ := List.mem_map.mp hblk
    simp only [Option.bind_eq_some] at hf
    obtain ⟨xr, _, yr, _, hdif⟩ := hf
    exact diffuse_dims _ xr yr bs d rfl rfl hbs hdif
  rw [hs2, hpr22]
  exact round_crop_dims s H bs diffused hH hsh hbs hlen hdims

theorem decRound_dims (bss xrs yrs : List Nat) (H : Nat) (hH : 0 < H)
    (s : Grid) (rnd : Nat) (s2 : Grid)
    (hsh : s.height = H) (hsw : s.width = H)
    (h : decRound bss xrs yrs H H s rnd = some s2) :
    s2.height = H ∧ s2.width = H := by
  unfold decRound at h
  simp only [Option.bind_eq_some] at h
  obtain ⟨bs, hbsget, pr, hpr, undiffused, hund, hcrop⟩ := h
  have hs2 : s2 = crop (merge undiffused pr.2) H H :=
    (Option.some.inj hcrop).symm
  have hbs : 0 < bs := by
    rcases Nat.eq_zero_or_pos bs with hbs0 | hbs1
    · unfold blocks at hpr
      rw [if_pos hbs0] at hpr
      exact Option.noConfusion hpr
    · exact hbs1
  have hsq : s.height = s.width := by rw [hsh, hsw]
  rw [blocks_eq s bs hbs hsq] at hpr
  have hpr2 : pr = ((((List.range ((padGrid s bs).height / bs)).map
      (fun I => (List.range ((padGrid s bs).height / bs)).map
        (fun J => subBlock (padGrid s bs) (I * bs) (J * bs) bs))).flatten),
      ((padGrid s bs).height / bs, (padGrid s bs).height / bs)) :=
    (Option.some.inj hpr).symm
  have hpr21 : pr.1 = (((List.range ((padGrid s bs).height / bs)).map
      (fun I => (List.range ((padGrid s bs).height / bs)).map
        (fun J => subBlock (padGrid s bs) (I * bs) (J * bs) bs))).flatten) := by
    rw [hpr2]
  have hpr22 : pr.2 = ((padGrid s bs).height / bs,
      (padGrid s bs).height / bs) := by
    rw [hpr2]
  have hlen : undiffused.length =
      (padGrid s bs).height / bs * ((padGrid s bs).height / bs) := by
    have h1 := mapO_length _ _ _ hund
    rw [h1, hpr21]
    exact flatten_sq_length _ _
  have hdims : ∀ d ∈ undiffused, d.height = bs ∧ d.width = bs := by
    intro d hd
    obtain ⟨blk, hblkmem, hf⟩ := mapO_mem _ _ _ hund d hd
    rw [hpr21] at hblkmem
    rw [List.mem_flatten] at hblkmem
    obtain ⟨row, hrow, hblk⟩ := hblkmem
    obtain ⟨I, _, rfl⟩ := List.mem_map.mp hrow
    obtain ⟨J, _, rfl⟩ := List.mem_map.mp hblk
    simp only [Option.bind_eq_some] at hf
    obtain ⟨xr, _, yr, _, hdif⟩ := hf
    obtain ⟨h1, h2⟩ := undiffuse_dims _ xr yr d hdif
    exact ⟨h1, h2⟩
  rw [hs2, hpr22]
  exact round_crop_dims s H bs undiffused hH hsh hbs hlen hdims

theorem subRoundE_dims (sss : List Nat) (H : Nat) (hH : 0 < H)
    (s : Grid) (rnd : Nat) (s2 : Grid)
    (hsh : s.height = H) (hsw : s.width = H)
    (h : subRoundE sss H H s rnd = some s2) :
    s2.height = H ∧ s2.width = H := by
  unfold subRoundE at h
  simp only [Option.bind_eq_some] at h
  obtain ⟨bs, hbsget, pr, hpr, hcrop⟩ := h
  have hs2 : s2 = crop (merge (pr.1.map
      (fun blk => column_transform (row_transform blk))) pr.2) H H :=
    (Option.some.inj hcrop).symm
  have hbs : 0 < bs := by
    rcases Nat.eq_zero_or_pos bs with hbs0 | hbs1
    · unfold blocks at hpr
      rw [if_pos hbs0] at hpr
      exact Option.noConfusion hpr
    · exact hbs1
  have hsq : s.height = s.width := by rw [hsh, hsw]
  rw [blocks_eq s bs hbs hsq] at hpr
  have hpr2 : pr = ((((List.range ((padGrid s bs).height / bs)).map
      (fun I => (List.range ((padGrid s bs).height / bs)).map
        (fun J => subBlock (padGrid s bs) (I * bs) (J * bs) bs))).flatten),
      ((padGrid s bs).height / bs, (padGrid s bs).height / bs)) :=
    (Option.some.inj hpr).symm
  have hpr21 : pr.1 = (((List.range ((padGrid s bs).height / bs)).map
      (fun I => (List.range ((padGrid s bs).height / bs)).map
        (fun J => subBlock (padGrid s bs) (I * bs) (J * bs) bs))).flatten) := by
    rw [hpr2]
  have hpr22 : pr.2 = ((padGrid s bs).height / bs,
      (padGrid s bs).height / bs) := by
    rw [hpr2]
  have hlen : (pr.1.map
      (fun blk => column_transform (row_transform blk))).length =
      (padGrid s bs).height / bs * ((padGrid s bs).height / bs) := by
    rw [List.length_map, hpr21]
    exact flatten_sq_length _ _
  have hdims : ∀ d ∈ pr.1.map
      (fun blk => column_transform (row_transform blk)),
      d.height = bs ∧ d.width = bs := by
    intro d hd
    obtain ⟨blk, hblkmem, rfl⟩ := List.mem_map.mp hd
    rw [hpr21] at hblkmem
    rw [List.mem_flatten] at hblkmem
    obtain ⟨row, hrow, hblk⟩ := hblkmem
    obtain ⟨I, _, rfl⟩ := List.mem_map.mp hrow
    obtain ⟨J, _, rfl⟩ := List.mem_map.mp hblk
    exact ⟨rfl, rfl⟩
  rw [hs2, hpr22]
  exact round_crop_dims s H bs _ hH hsh hbs hlen hdims

theorem foldO_dims {ι : Type} (f : Grid → ι → Option Grid) (H : Nat)
    (hf : ∀ s r s2, s.height = H → s.width = H → f s r = some s2 →
      s2.height = H ∧ s2.width = H)
    (l : List ι) (g ge : Grid) (hgh : g.height = H) (hgw : g.width = H)
    (h : foldO f g l = some ge) : ge.height = H ∧ ge.width = H := by
  induction l generalizing g with
  | nil =>
    replace h : some g = some ge := h
    rw [← Option.some.inj h]
    exact ⟨hgh, hgw⟩
  | cons r t ih =>
    replace h : (f g r).bind (fun g2 => foldO f g2 t) = some ge := h
    simp only [Option.bind_eq_some] at h
    obtain ⟨g2, hg2, h⟩ := h
    obtain ⟨h1, h2⟩ := hf g r g2 hgh hgw hg2
    exact ih g2 h1 h2 h

/-- Claim C4, amended: for a square, positively sized input grid, every
call of `encrypt` or `decrypt` that completes returns a grid of exactly
the input's dimensions — each round's merge is a padded-size square that
the final `[:height, :width]` slice cuts back down. (For non-square
inputs the claim fails: the `shape[0]` chunking of `utils.merge`
reassembles the blocks into a grid of the wrong shape, as the
counterexample shows.) -/
theorem C4_dimensions_amended (g : Grid) (key : List Char) (permute : Bool)
    (rounds : Nat) (hsq : g.width = g.height) (hpos : 0 < g.height) :
    (∀ ge, encrypt g key permute rounds = some ge →
      ge.height = g.height ∧ ge.width = g.width) ∧
    (∀ gd, decrypt g key permute rounds = some gd →
      gd.height = g.height ∧ gd.width = g.width) := by
  constructor
  · intro ge h
    unfold encrypt at h
    simp only [Option.bind_eq_some] at h
    obtain ⟨dc, hdc, ad, had, h⟩ := h
    rw [hsq] at had
    obtain ⟨hadh, hadw⟩ := foldO_dims
      (encRound dc.1 dc.2.1 dc.2.2 g.height g.height) g.height
      (fun s r s2 a b c =>
        encRound_dims dc.1 dc.2.1 dc.2.2 g.height hpos s r s2 a b c)
      (List.range rounds) g ad rfl hsq had
    cases permute with
    | false =>
      replace h : some ad = some ge := h
      rw [← Option.some.inj h]
      exact ⟨hadh, by rw [hsq]; exact hadw⟩
    | true =>
      replace h : (substitution_characteristics key).bind
        (fun sss => foldO (subRoundE sss g.height g.width) ad
          (List.range rounds)) = some ge := h
      rw [hsq] at h
      simp only [Option.bind_eq_some] at h
      obtain ⟨sss, _, h⟩ := h
      obtain ⟨hgeh, hgew⟩ := foldO_dims
        (subRoundE sss g.height g.height) g.height
        (fun s r s2 a b c =>
          subRoundE_dims sss g.height hpos s r s2 a b c)
        (List.range rounds) ad ge hadh hadw h
      exact ⟨hgeh, by rw [hsq]; exact hgew⟩
  · intro gd h
    unfold decrypt at h
    simp only [Option.bind_eq_some] at h
    obtain ⟨as, has, dc, hdc, h⟩ := h
    have hasg : as = g := by
      cases permute with
      | false =>
        replace has : some g = some as := has
        exact (Option.some.inj has).symm
      | true =>
        replace has : (substitution_characteristics key).bind
          (fun sss => foldO (subRoundD sss g.height g.width) g
            (pyRangeAsc ((rounds : Int) - 1) (-1 - 1))) = some as := has
        simp only [Option.bind_eq_some] at has
        obtain ⟨sss, _, hfold⟩ := has
        rw [pyRangeAsc_dead rounds] at hfold
        replace hfold : some g = some as := hfold
        exact (Option.some.inj hfold).symm
    rw [hsq] at h
    rw [hasg] at h
    obtain ⟨hgdh, hgdw⟩ := foldO_dims
      (decRound dc.1 dc.2.1 dc.2.2 g.height g.height) g.height
      (fun s r s2 a b c =>
        decRound_dims dc.1 dc.2.1 dc.2.2 g.height hpos s r s2 a b c)
      ((List.range rounds).reverse) g gd rfl hsq h
    exact ⟨hgdh, by rw [hsq]; exact hgdw⟩

/-- Witness for `C4_dimensions_amended` on the 2×2 grid and the key
`"10010…0"` with `permute = false` and one round. -/
theorem C4_dimensions_amended_witness :
    (∀ ge, encrypt gridA key1001 false 1 = some ge →
      ge.height = gridA.height ∧ ge.width = gridA.width) ∧
    (∀ gd, decrypt gridA key1001 false 1 = some gd →
      gd.height = gridA.height ∧ gd.width = gridA.width) :=
  C4_dimensions_amended gridA key1001 false 1 (by decide) (by decide)
